import Mathlib

/-!
# go-diff: incremental coverage from a git diff and a coverage profile

A shallow embedding of `src/diff.go`.

* A Go string is the list of its bytes (`GoString`); `utf8 s` is the Go string of the
  literal `s`.
* Go `int` and `int64` are Lean `Int`; the one arithmetic operation of the
  program, the `int64` addition `line.end+line.start`, wraps modulo `2^64`
  (`add64`).  `int` is taken to be 64 bits wide, so `int64(x)` is the identity.
* A Go map is an association list with at most one entry per key
  (`mapGet`, `mapSet`).  A `range` loop over a map visits the entries in an
  unspecified order; the matcher takes the entries in the order of the list it
  is given.
* `bytes.Buffer` is the string written so far.
* A slice expression that can be out of range returns an `Option`; `none` is the panic.
* `parseDiff` takes the output of the `git diff` command as an argument, `parse` the
  parsed profiles and the previous content of the output file.
* The scanner of `parseDiff` stops at the first line of 64 KiB or more (`ScanLines`).
-/

namespace GoDiff

/-! ## Strings -/

/-- A Go string: a sequence of bytes. -/
abbrev GoString := List UInt8

/-- The Go string of a literal: its bytes in UTF-8. -/
def utf8 (s : String) : GoString := s.data.flatMap String.utf8EncodeChar

/-! ## Data model -/

/-- The struct `lineInfo` of `diff.go`: new-side start line and line count of a hunk.
The Go field `end` is called `end_` here. -/
structure lineInfo where
  start : Int
  end_ : Int
  deriving DecidableEq, Repr

/-- The type `Diff` of `diff.go`, `map[string][]lineInfo`. -/
abbrev Diff := List (GoString × List lineInfo)

/-- The struct `cover.ProfileBlock` of `golang.org/x/tools/cover`. -/
structure ProfileBlock where
  StartLine : Int
  StartCol : Int
  EndLine : Int
  EndCol : Int
  NumStmt : Int
  Count : Int
  deriving DecidableEq, Repr

/-- The struct `cover.Profile` of `golang.org/x/tools/cover`. -/
structure Profile where
  FileName : GoString
  Mode : GoString
  Blocks : List ProfileBlock
  deriving DecidableEq, Repr

/-! ## Go maps -/

/-- The map read `m[k]` with its presence flag. -/
def mapGet {β : Type} (m : List (GoString × β)) (k : GoString) : Option β :=
  match m with
  | [] => none
  | (k', v) :: t => if k' = k then some v else mapGet t k

/-- The map write `m[k] = v`: the entry of `k` is replaced, or a new entry is added. -/
def mapSet {β : Type} (m : List (GoString × β)) (k : GoString) (v : β) :
    List (GoString × β) :=
  match m with
  | [] => [(k, v)]
  | (k', v') :: t => if k' = k then (k, v) :: t else (k', v') :: mapSet t k v

/-- The keys of a map. -/
def mapKeys {β : Type} (m : List (GoString × β)) : List GoString := m.map Prod.fst

/-! ## Machine integers -/

/-- The value of type `int64` congruent to `x` modulo `2^64`. -/
def wrap64 (x : Int) : Int := (x + 2 ^ 63) % 2 ^ 64 - 2 ^ 63

/-- Addition of two `int64` values. -/
def add64 (a b : Int) : Int := wrap64 (a + b)

/-- The range of `int64`. -/
def inInt64 (x : Int) : Prop := -(2 ^ 63) ≤ x ∧ x < 2 ^ 63

instance (x : Int) : Decidable (inInt64 x) := by
  unfold inInt64; exact inferInstance

/-! ## Library routines used by `parseDiff`

The byte values that occur: `\n` 10, `\r` 13, space 32, `+` 43, `,` 44, `-` 45,
`.` 46, `/` 47, the digits 48 to 57, `@` 64, `\` 92. -/

/-- The Go function `strings.HasPrefix`. -/
def HasPrefix (s pre : GoString) : Bool := pre.isPrefixOf s

/-- The Go function `strings.HasSuffix`. -/
def HasSuffix (s suf : GoString) : Bool := suf.isSuffixOf s

/-- The Go function `strings.Split` for a separator of one byte: the pieces of `s`
between the occurrences of `sep`; one piece more than there are separators. -/
def Split (s : GoString) (sep : UInt8) : List GoString :=
  match s with
  | [] => [[]]
  | c :: cs =>
    if c = sep then [] :: Split cs sep
    else
      match Split cs sep with
      | [] => [[c]]
      | h :: t => (c :: h) :: t

/-- The loop of `filepath.Ext`, from the last byte down: `before` holds the bytes not
yet visited, last byte first, and `acc` the bytes visited. The scan stops at a `/`
with the empty string and at a `.` with the string from that dot on. -/
def extScan : GoString → GoString → GoString
  | [], _ => []
  | c :: before, acc =>
    if c = 47 then [] else if c = 46 then c :: acc else extScan before (c :: acc)

/-- The Go function `filepath.Ext` (separator `/`): the suffix of the last element of
`path` that starts at its last dot, or the empty string. -/
def Ext (path : GoString) : GoString := extScan path.reverse []

/-- The loop of `filepath.Clean` over the elements of the path, `out` being the elements
written so far, last one first: an empty element and `.` are skipped; `..` removes the
last element written when that one is a name, is dropped at the root, and is written
otherwise; a name is written. -/
def cleanElems (rooted : Bool) : List GoString → List GoString → List GoString
  | [], out => out
  | e :: es, out =>
    if e = [] ∨ e = [46] then cleanElems rooted es out
    else if e = [46, 46] then
      match out with
      | top :: out' =>
        if top = [46, 46] then cleanElems rooted es (e :: out)
        else cleanElems rooted es out'
      | [] => if rooted then cleanElems rooted es [] else cleanElems rooted es [e]
    else cleanElems rooted es (e :: out)

/-- The Go function `filepath.Clean` (separator `/`, no volume names): the shortest
path equivalent to `path` by lexical processing; `.` for an empty result. -/
def Clean (path : GoString) : GoString :=
  if path = [] then [46]
  else
    let rooted := decide (path.head? = some 47)
    let body := List.intercalate [47] (cleanElems rooted (Split path 47) []).reverse
    if rooted then 47 :: body else if body = [] then [46] else body

/-- The Go function `filepath.Join` for two elements: the elements from the first
non-empty one on are joined with `/` and cleaned; the empty string when both are
empty. -/
def Join (a b : GoString) : GoString :=
  if a ≠ [] then Clean (a ++ 47 :: b) else if b ≠ [] then Clean b else []

/-- The Go function `strings.ReplaceAll` for one-byte strings `old` and `new`. -/
def ReplaceAll (s : GoString) (old new : UInt8) : GoString :=
  s.map fun c => if c = old then new else c

/-- A byte is a decimal digit. -/
def isDigit (c : UInt8) : Bool := decide (48 ≤ c.toNat) && decide (c.toNat ≤ 57)

/-- The loop of `strconv.ParseUint` in base 10 with 64 bits, from the value `n` read so
far: `none` is a syntax error, and a value out of range is replaced by `2^64 - 1` at the
digit where the range is left (the bytes after it are not read). -/
def parseUint : GoString → Nat → Option Nat
  | [], n => some n
  | c :: cs, n =>
    if isDigit c then
      if n ≥ (2 ^ 64 - 1) / 10 + 1 then some (2 ^ 64 - 1)
      else if n * 10 + (c.toNat - 48) > 2 ^ 64 - 1 then some (2 ^ 64 - 1)
      else parseUint cs (n * 10 + (c.toNat - 48))
    else none

/-- The value returned by `strconv.Atoi`, the error being dropped as `parseDiff` does:
an optional sign and decimal digits; 0 on a syntax error (also for the empty string); the
nearest bound of `int` when the value is out of range. -/
def Atoi (s : GoString) : Int :=
  let neg : Bool := decide (s.head? = some 45)
  let body : GoString := if s.head? = some 43 ∨ s.head? = some 45 then s.drop 1 else s
  if body = [] then 0
  else
    match parseUint body 0 with
    | none => 0
    | some un =>
      if neg then (if un > 2 ^ 63 then -(2 ^ 63) else -(un : Int))
      else (if un ≥ 2 ^ 63 then 2 ^ 63 - 1 else (un : Int))

/-- The regular expression element `\d+` at the start of `s`: the longest run of digits,
which must not be empty, and the rest of `s`. -/
def matchDigits (s : GoString) : Option (GoString × GoString) :=
  if s.takeWhile isDigit = [] then none
  else some (s.takeWhile isDigit, s.dropWhile isDigit)

/-- A literal `lit` at the start of `s`: the rest of `s`. -/
def matchLit (lit s : GoString) : Option GoString :=
  if lit.isPrefixOf s then some (s.drop lit.length) else none

/-- The regular expression element `(?:,(\d+))?` at the start of `s`: the digits after
the comma when the group takes part in the match, and the rest of `s`. -/
def matchCount (s : GoString) : Option GoString × GoString :=
  match s with
  | 44 :: t =>
    match matchDigits t with
    | some (ds, rest) => (some ds, rest)
    | none => (none, s)
  | _ => (none, s)

/-- The call `regex.FindStringSubmatch(line)` for the pattern of line 23,
`^@@ -\d+(?:,\d+)? \+(\d+)(?:,(\d+))? @@`: the empty slice when the line does not match,
else the text matched and the texts of the two groups, the text of a group that takes
no part in the match being empty.  Every element of the pattern is followed by a byte
it cannot take itself, so the longest choice at each element is the only one that can
lead to a match. -/
def FindStringSubmatch (line : GoString) : List GoString :=
  match matchLit (utf8 "@@ -") line with
  | none => []
  | some s1 =>
    match matchDigits s1 with
    | none => []
    | some (_, s2) =>
      match matchLit (utf8 " +") (matchCount s2).2 with
      | none => []
      | some s4 =>
        match matchDigits s4 with
        | none => []
        | some (g1, s5) =>
          match matchLit (utf8 " @@") (matchCount s5).2 with
          | none => []
          | some s7 =>
            [line.take (line.length - s7.length), g1, ((matchCount s5).1).getD []]

/-- The method `dropCR` of `bufio`: a final `\r` is removed. -/
def dropCR (data : GoString) : GoString :=
  if data.getLast? = some 13 then data.dropLast else data

/-- The constant `bufio.MaxScanTokenSize`, the size to which the buffer of a
`bufio.Scanner` made by `bufio.NewScanner` can grow: 64 KiB. -/
def MaxScanTokenSize : Nat := 64 * 1024

/-- The tokens that `scanner.Scan` delivers, from the pieces of the input between the
newlines: every piece but the last one is a line that ends with a newline, and the last
piece is a token when it is not empty.  A piece of `MaxScanTokenSize` bytes or more does
not fit in the buffer before its end is found: `Scan` then returns false (the error
`bufio.ErrTooLong`, which `parseDiff` never reads), so that line and the lines after it
are not delivered. -/
def scanTokens : List GoString → List GoString
  | [] => []
  | [last] =>
    if last.length < MaxScanTokenSize then
      (match last with
        | [] => []
        | c :: cs => [dropCR (c :: cs)])
    else []
  | line :: rest =>
    if line.length < MaxScanTokenSize then dropCR line :: scanTokens rest else []

/-- The tokens of the `bufio.Scanner` of line 51 (split function `bufio.ScanLines`,
buffer of the default size): the lines of `data`, each without its end-of-line marker,
up to the first line of 64 KiB or more. -/
def ScanLines (data : GoString) : List GoString := scanTokens (Split data 10)

/-! ## `parseDiff` -/

/-- The variables of the loop of `parseDiff`: the map `diffs`, `newp` and `trueFile`. -/
structure ParseState where
  diffs : Diff
  newp : GoString
  trueFile : Bool
  deriving DecidableEq, Repr

/-- The slice expression `s[n:]`; `none` when `n` is out of range. -/
def sliceFrom (s : GoString) (n : Nat) : Option GoString :=
  if n ≤ s.length then some (s.drop n) else none

/-- The test of line 63 negated: the extension is `.go` and the name does not end in
`_test.go`. -/
def eligible (_path : GoString) : Bool :=
  !(decide (Ext _path ≠ utf8 ".go") || HasSuffix _path (utf8 "_test.go"))

/-- The branch of a line that starts with `diff --git` (lines 59 to 75), with the module
root `mod`. -/
def headerStep (mod : GoString) (st : ParseState) (line : GoString) : Option ParseState :=
  match (Split line 32).getLast? with
  | none => some st
  | some _path =>
    if decide (Ext _path ≠ utf8 ".go") || HasSuffix _path (utf8 "_test.go") then
      some { st with trueFile := false }
    else
      match mapGet st.diffs _path with
      | some _ => some st
      | none =>
        match sliceFrom _path 2 with
        | none => none
        | some rest =>
          let path := ReplaceAll (Join mod rest) 92 47
          some { diffs := mapSet st.diffs path [], newp := path, trueFile := true }

/-- The range appended for a hunk header (lines 81 to 97), if any. -/
def hunkOf (line : GoString) : Option lineInfo :=
  match FindStringSubmatch line with
  | [_, s1, s2] => some ⟨Atoi s1, Atoi s2⟩
  | [_, s1] => some ⟨Atoi s1, 0⟩
  | _ => none

/-- The statement `diffs[newp] = append(diffs[newp], r)`. -/
def appendRange (st : ParseState) (r : lineInfo) : ParseState :=
  { st with diffs := mapSet st.diffs st.newp ((mapGet st.diffs st.newp).getD [] ++ [r]) }

/-- The branch of a line that starts with `@@` (lines 77 to 97). -/
def hunkStep (st : ParseState) (line : GoString) : ParseState :=
  if !st.trueFile then st
  else
    match hunkOf line with
    | some r => appendRange st r
    | none => st

/-- The body of the loop over the lines (lines 57 to 98). -/
def parseStep (mod : GoString) (st : ParseState) (line : GoString) : Option ParseState :=
  if HasPrefix line (utf8 "diff --git") then headerStep mod st line
  else if HasPrefix line (utf8 "@@") then some (hunkStep st line)
  else some st

/-- The loop `for scanner.Scan()` over the lines. -/
def parseLoop (mod : GoString) : List GoString → ParseState → Option ParseState
  | [], st => some st
  | line :: rest, st =>
    match parseStep mod st line with
    | none => none
    | some st' => parseLoop mod rest st'

/-- The variables of `parseDiff` before the loop (lines 50 to 55). -/
def parseInit : ParseState := { diffs := [], newp := [], trueFile := false }

/-- The function `parseDiff` on the output `diff` of the `git diff` command, with the
module root `mod`. -/
def parseDiff (mod : GoString) (diff : GoString) : Option Diff :=
  (parseLoop mod (ScanLines diff) parseInit).map fun st => st.diffs

/-! ## The matcher of `parse` -/

/-- One call of `buffer.WriteString` in the matcher, recorded with the file name, the
block index and the block it was made for. -/
structure Emitted where
  file : GoString
  index : Nat
  block : ProfileBlock
  deriving DecidableEq, Repr

/-- The state of the loops of `parse`: the map `fname2index`
(`map[string]map[int]struct{}`, the inner set being a list of indices), the buffer, and
a ghost record `emitted` of the writes made to the buffer after the header, in order.
No branch of the code reads `emitted`. -/
structure MatchState where
  fname2index : List (GoString × List Nat)
  buffer : GoString
  emitted : List Emitted
  deriving DecidableEq, Repr

/-- The text of `fmt.Sprintf("%s:%d.%d,%d.%d %d %d\n", ...)` for a block of a file. -/
def Sprintf (fileName : GoString) (block : ProfileBlock) : GoString :=
  fileName ++ utf8 ":" ++ utf8 (Int.repr block.StartLine) ++ utf8 "."
    ++ utf8 (Int.repr block.StartCol) ++ utf8 "," ++ utf8 (Int.repr block.EndLine)
    ++ utf8 "." ++ utf8 (Int.repr block.EndCol) ++ utf8 " "
    ++ utf8 (Int.repr block.NumStmt) ++ utf8 " " ++ utf8 (Int.repr block.Count)
    ++ utf8 "\n"

/-- The condition of line 135,
`(line.start >= bstart || line.start < bstart) && bend <= line.end+line.start`. -/
def selects (line : lineInfo) (block : ProfileBlock) : Bool :=
  let bstart := block.StartLine
  let bend := block.EndLine
  (decide (line.start ≥ bstart) || decide (line.start < bstart))
    && decide (bend ≤ add64 line.end_ line.start)

/-- The set `fname2index[fileName]`, empty when the key is absent. -/
def seenOf (st : MatchState) (fileName : GoString) : List Nat :=
  (mapGet st.fname2index fileName).getD []

/-- The body of the loop over `profile.Blocks` (lines 128 to 142) for index `i`. -/
def blockStep (fileName : GoString) (line : lineInfo) (st : MatchState)
    (ib : Nat × ProfileBlock) : MatchState :=
  if ib.1 ∈ seenOf st fileName then st
  else if selects line ib.2 then
    { fname2index := mapSet st.fname2index fileName (ib.1 :: seenOf st fileName)
      buffer := st.buffer ++ Sprintf fileName ib.2
      emitted := st.emitted ++ [⟨fileName, ib.1, ib.2⟩] }
  else st

/-- The loop `for i, block := range profile.Blocks` for one changed range. -/
def blocksLoop (profile : Profile) (st : MatchState) (line : lineInfo) : MatchState :=
  profile.Blocks.enum.foldl (blockStep profile.FileName line) st

/-- The body of the loop over `profiles` (lines 118 to 144) for one map entry. -/
def profileStep (fpath : GoString) (lines : List lineInfo) (st : MatchState)
    (profile : Profile) : MatchState :=
  if profile.FileName ≠ fpath then st
  else
    let st1 : MatchState :=
      match mapGet st.fname2index profile.FileName with
      | some _ => st
      | none => { st with fname2index := mapSet st.fname2index profile.FileName [] }
    lines.foldl (blocksLoop profile) st1

/-- The body of the loop `for fpath, lines := range diffs`. -/
def diffStep (profiles : List Profile) (st : MatchState)
    (entry : GoString × List lineInfo) : MatchState :=
  profiles.foldl (profileStep entry.1 entry.2) st

/-- The state of `parse` at line 111 to 115: the header is in the buffer. -/
def matchInit : MatchState :=
  { fname2index := [], buffer := utf8 "mode: count\n", emitted := [] }

/-- The loops of `parse` (lines 111 to 146); `diffs` lists the entries of the map in
the order in which the `range` loop visits them. -/
def matcher (diffs : Diff) (profiles : List Profile) : MatchState :=
  diffs.foldl (diffStep profiles) matchInit

/-- The value of `buffer.String()` at line 149. -/
def parseText (diffs : Diff) (profiles : List Profile) : GoString :=
  (matcher diffs profiles).buffer

/-! ## The output file -/

/-- The effect of `os.OpenFile(name, os.O_CREATE|os.O_RDWR, 0666)` on the content of
the file when the call succeeds: an absent file is created empty, an existing file is
opened as it is (the flags do not contain `os.O_TRUNC`). `none` is an absent file. -/
def OpenFile (file : Option GoString) : GoString := file.getD []

/-- The effect of `WriteString` on a file opened at offset 0: the bytes are stored from
offset 0 on, and bytes of the file beyond them are kept. -/
def WriteString (content : GoString) (s : GoString) : GoString :=
  s ++ content.drop s.length

/-- The content of `increment_coverage.out` after `parse` (lines 104 to 153), from the
content before (`none`: no such file), when opening and writing succeed. -/
def parse (diffs : Diff) (profiles : List Profile) (file : Option GoString) :
    GoString :=
  WriteString (OpenFile file) (parseText diffs profiles)

/-! ## Notions used to state the properties of `parseDiff` -/

/-- The line starts a file section: it starts with `diff --git`. -/
def isHeader (line : GoString) : Bool := HasPrefix line (utf8 "diff --git")

/-- The last of the pieces of the line between spaces, `arr[len(arr)-1]`. -/
def lastToken (line : GoString) : Option GoString := (Split line 32).getLast?

/-- The key made of a token by lines 69 and 70: the token without its first two bytes,
joined to the module root, with `\` replaced by `/`. -/
def qualify (mod tok : GoString) : GoString := ReplaceAll (Join mod (tok.drop 2)) 92 47

/-- The line is a `diff --git` line whose last token is `tok`, and `tok` is eligible. -/
def EligibleHeader (line tok : GoString) : Prop :=
  isHeader line = true ∧ lastToken line = some tok ∧ eligible tok = true

/-- The invariant of the loop of `parseDiff` after the lines `seen`: every key of the
map is the key made of the last token of an eligible `diff --git` line read so far, and
when `trueFile` is set `newp` is a key of the map. -/
structure ParseInv (mod : GoString) (seen : List GoString) (st : ParseState) : Prop where
  keys : ∀ k ∈ mapKeys st.diffs,
    ∃ line ∈ seen, ∃ tok, EligibleHeader line tok ∧ k = qualify mod tok
  newp : st.trueFile = true → st.newp ∈ mapKeys st.diffs

/-- The last token of a `diff --git` line when that token is eligible. -/
def headerToken (line : GoString) : Option GoString :=
  if isHeader line then (lastToken line).filter eligible else none

/-- The key that a `diff --git` line with an eligible last token makes. -/
def headerKey (mod line : GoString) : Option GoString :=
  (headerToken line).map (qualify mod)

/-- The value of a decimal numeral. -/
def decimal (s : GoString) : Nat := s.foldl (fun n c => n * 10 + (c.toNat - 48)) 0

/-- A numeral: a non-empty string of digits. -/
def IsNumeral (s : GoString) : Prop := s ≠ [] ∧ ∀ c ∈ s, isDigit c = true

/-- An optional count is absent or a numeral. -/
def IsOptNumeral (B : Option GoString) : Prop := ∀ b ∈ B, IsNumeral b

/-- The text `,B` of an optional count, empty when the count is absent. -/
def optComma : Option GoString → GoString
  | none => []
  | some b => 44 :: b

/-- The line `@@ -A[,B] +C[,D] @@` followed by `rest`. -/
def hunkLine (A : GoString) (B : Option GoString) (C : GoString) (D : Option GoString)
    (rest : GoString) : GoString :=
  utf8 "@@ -" ++ (A ++ (optComma B ++ (utf8 " +" ++ (C ++ (optComma D ++ (utf8 " @@" ++ rest))))))

/-- No eligible `diff --git` line of `lines` has a last token that is the key made by an
eligible `diff --git` line of `lines`: the test `diffs[_path]` of line 68 never finds a
key. -/
def GuardNeverFires (mod : GoString) (lines : List GoString) : Prop :=
  ∀ l1 ∈ lines, ∀ l2 ∈ lines, headerKey mod l1 = none ∨ headerToken l2 ≠ headerKey mod l1

instance (mod : GoString) (lines : List GoString) : Decidable (GuardNeverFires mod lines) := by
  unfold GuardNeverFires; exact inferInstance

/-- A diff text with two sections of Go files, content lines and a line that starts
with `@@` without being a hunk header. -/
def diffTwoSections : GoString :=
  utf8 ("diff --git a/pkg/x.go b/pkg/x.go\n@@ -10,2 +12,3 @@\n+new\n@@ -20 +23 @@ func f()\n" ++
    "@@ broken\ndiff --git a/pkg/y.go b/pkg/y.go\n@@ -1 +1,0 @@\n")

/-- The diff text of the files `x.go` and `m/x.go`, changed in one hunk each. -/
def diffNested : GoString :=
  utf8 "diff --git a/x.go b/x.go\n@@ -1 +1 @@\ndiff --git a/m/x.go b/m/x.go\n@@ -5 +7,2 @@\n"

/-! ## `parseDiff` without the branch `len(sub) == 2` -/

/-- The range appended for a hunk header when the branch `len(sub) == 2` (lines 90 to
96) is deleted from the source: only the branch `len(sub) == 3` is left. -/
def hunkOfNoTwo (line : GoString) : Option lineInfo :=
  match FindStringSubmatch line with
  | [_, s1, s2] => some ⟨Atoi s1, Atoi s2⟩
  | _ => none

/-- The branch of a line that starts with `@@`, without the branch `len(sub) == 2`. -/
def hunkStepNoTwo (st : ParseState) (line : GoString) : ParseState :=
  if !st.trueFile then st
  else
    match hunkOfNoTwo line with
    | some r => appendRange st r
    | none => st

/-- The body of the loop over the lines, without the branch `len(sub) == 2`. -/
def parseStepNoTwo (mod : GoString) (st : ParseState) (line : GoString) :
    Option ParseState :=
  if HasPrefix line (utf8 "diff --git") then headerStep mod st line
  else if HasPrefix line (utf8 "@@") then some (hunkStepNoTwo st line)
  else some st

/-- The loop over the lines, without the branch `len(sub) == 2`. -/
def parseLoopNoTwo (mod : GoString) : List GoString → ParseState → Option ParseState
  | [], st => some st
  | line :: rest, st =>
    match parseStepNoTwo mod st line with
    | none => none
    | some st' => parseLoopNoTwo mod rest st'

/-- The function `parseDiff` without the branch `len(sub) == 2`. -/
def parseDiffNoTwo (mod : GoString) (diff : GoString) : Option Diff :=
  (parseLoopNoTwo mod (ScanLines diff) parseInit).map fun st => st.diffs

/-- Every range stored in the map satisfies `P`. -/
def AllRanges (P : lineInfo → Prop) (diffs : Diff) : Prop :=
  ∀ entry ∈ diffs, ∀ r ∈ entry.2, P r

/-- The diff text of a file whose lines are all deleted: the new side is `+0,0`. -/
def diffEmptied : GoString :=
  utf8 "diff --git a/pkg/x.go b/pkg/x.go\n@@ -1,2 +0,0 @@\n-package x\n-var a int\n"

/-- Every hunk header among the lines has a new-side count, and that count is 0: a line
of the form `@@ -A[,B] +C[,D] @@...` has the part `,D`, and the value of `D` is 0. -/
def OnlyZeroCounts (lines : List GoString) : Prop :=
  ∀ l ∈ lines, ∀ A B C D rest, IsNumeral A → IsOptNumeral B → IsNumeral C → IsOptNumeral D →
    l = hunkLine A B C D rest → ∃ d, D = some d ∧ decimal d = 0

/-- The diff text of a Go file from which three lines are deleted and to which no line
is added. -/
def diffDeletion : GoString :=
  utf8 "diff --git a/pkg/x.go b/pkg/x.go\n@@ -12,3 +11,0 @@\n-a\n-b\n-c\n"

/-- A diff text in which the file `pkg/x.go` has two sections. -/
def diffTwice : GoString :=
  utf8 ("diff --git a/pkg/x.go b/pkg/x.go\n@@ -1 +1 @@\n" ++
    "diff --git a/pkg/x.go b/pkg/x.go\n@@ -5 +7,2 @@\n")

/-- The largest value of `start + length` over the ranges (0 when there is none). -/
def maxFar : List lineInfo → Int
  | [] => 0
  | [r] => r.start + r.end_
  | r :: r' :: rs => max (r.start + r.end_) (maxFar (r' :: rs))

/-- The position of a block: start line and column, end line and column. -/
def blockPos (b : ProfileBlock) : Int × Int × Int × Int :=
  (b.StartLine, b.StartCol, b.EndLine, b.EndCol)

/-- A block of lines 1 to 20, such as the body of a function that holds a function
literal. -/
def blockOuter : ProfileBlock := ⟨1, 1, 20, 2, 5, 1⟩

/-- A block of lines 2 to 3, inside `blockOuter`; it starts after it. -/
def blockInner : ProfileBlock := ⟨2, 5, 3, 6, 1, 1⟩

/-- A block of lines 1 to 2 that starts at `1.1`. -/
def blockShort : ProfileBlock := ⟨1, 1, 2, 2, 1, 1⟩

/-- A block of lines 1 to 3 that starts at `1.1` as well. -/
def blockLong : ProfileBlock := ⟨1, 1, 3, 3, 2, 1⟩

/-- The order of `cover.ParseProfiles` on the blocks of a profile (`blocksByStart`):
by start line, then by start column. -/
def StartsBefore (a b : ProfileBlock) : Prop :=
  a.StartLine < b.StartLine ∨ (a.StartLine = b.StartLine ∧ a.StartCol < b.StartCol)

instance (a b : ProfileBlock) : Decidable (StartsBefore a b) := by
  unfold StartsBefore; exact inferInstance

/-- The Go function `strings.TrimPrefix`: `s` without the leading `pre`, and `s` itself
when it does not start with `pre`.  The comment of line 67, `trim prefix b/`, names this
operation; the code of line 69 is the slice `_path[2:]`. -/
def TrimPrefix (s pre : GoString) : GoString :=
  if HasPrefix s pre then s.drop pre.length else s

/-- The lines written are in increasing order of block index. -/
def IndexIncreasing (group : List Emitted) : Prop :=
  group.Pairwise fun a b => a.index < b.index

/-- The writes of the matcher for one entry of the map, from the initial state. -/
def entryWrites (profiles : List Profile) (entry : GoString × List lineInfo) :
    List Emitted :=
  (diffStep profiles matchInit entry).emitted

/-- The states `st` and `st0` agree on the set of the file `f`, and `st` has written
`pre` before the writes of `st0`. -/
def SameOn (f : GoString) (pre : List Emitted) (st st0 : MatchState) : Prop :=
  st.emitted = pre ++ st0.emitted ∧ seenOf st f = seenOf st0 f

/-- A second file, for inputs with two files. -/
def ygo : GoString := utf8 "example.com/m/pkg/y.go"

/-! ## Notions used to state the properties of the matcher -/

/-- Block `i` of file `f` has been written to the buffer. -/
def emits (st : MatchState) (f : GoString) (i : Nat) : Prop :=
  ∃ e ∈ st.emitted, e.file = f ∧ e.index = i

/-- The text of a sequence of writes. -/
def render : List Emitted → GoString
  | [] => []
  | e :: es => Sprintf e.file e.block ++ render es

/-- The invariant of the loops of `parse`. -/
structure MatchInv (profiles : List Profile) (st : MatchState) : Prop where
  seen_iff : ∀ f i, i ∈ seenOf st f ↔ emits st f i
  nodup : (st.emitted.map fun e => (e.file, e.index)).Nodup
  text : st.buffer = utf8 "mode: count\n" ++ render st.emitted
  block_of : ∀ e ∈ st.emitted,
    ∃ p ∈ profiles, p.FileName = e.file ∧ p.Blocks[e.index]? = some e.block

/-- No `int64` overflow in `line.end+line.start`, for every range of the map. -/
def NoOverflow (diffs : Diff) : Prop :=
  ∀ entry ∈ diffs, ∀ r ∈ entry.2, inInt64 (r.end_ + r.start)

instance (st : MatchState) (f : GoString) (i : Nat) : Decidable (emits st f i) := by
  unfold emits; exact inferInstance

instance (diffs : Diff) : Decidable (NoOverflow diffs) := by
  unfold NoOverflow; exact inferInstance

/-! ## Concrete inputs -/

/-- The file of the scenarios of the specification. -/
def xgo : GoString := utf8 "example.com/m/pkg/x.go"

/-- The changed range of the scenarios: start line 12, three lines. -/
def range12 : lineInfo := ⟨12, 3⟩

/-- The block `12.5,14.1 2 7`. -/
def block14 : ProfileBlock := ⟨12, 5, 14, 1, 2, 7⟩

/-- The block `12.5,20.1 2 7`, which ends beyond the far end of `range12`. -/
def block20 : ProfileBlock := ⟨12, 5, 20, 1, 2, 7⟩

/-- The block `1.1,2.1 1 0`, which lies entirely above `range12`. -/
def block2 : ProfileBlock := ⟨1, 1, 2, 1, 1, 0⟩


end GoDiff

/-! # Properties -/

namespace GoDiff

/-! ## Go maps -/

theorem mapGet_mapSet_same {β : Type} (m : List (GoString × β)) (k : GoString) (v : β) :
    mapGet (mapSet m k v) k = some v := by
  induction m with
  | nil => simp [mapSet, mapGet]
  | cons hd t ih =>
    obtain ⟨k', v'⟩ := hd
    by_cases h : k' = k
    · simp [mapSet, mapGet, h]
    · simp [mapSet, mapGet, h, ih]

theorem mapGet_mapSet_other {β : Type} (m : List (GoString × β)) (k k' : GoString) (v : β)
    (hk : k' ≠ k) : mapGet (mapSet m k v) k' = mapGet m k' := by
  induction m with
  | nil => simp [mapSet, mapGet, Ne.symm hk]
  | cons hd t ih =>
    obtain ⟨k₀, v₀⟩ := hd
    by_cases h : k₀ = k
    · subst h
      simp [mapSet, mapGet, Ne.symm hk]
    · by_cases h2 : k₀ = k'
      · subst h2
        simp [mapSet, mapGet, h]
      · simp [mapSet, mapGet, h, h2, ih]

theorem mem_mapKeys_mapSet {β : Type} (m : List (GoString × β)) (k k' : GoString) (v : β) :
    k' ∈ mapKeys (mapSet m k v) ↔ k' ∈ mapKeys m ∨ k' = k := by
  induction m with
  | nil => simp [mapSet, mapKeys]
  | cons hd t ih =>
    obtain ⟨k₀, v₀⟩ := hd
    simp only [mapKeys] at ih
    by_cases h : k₀ = k
    · subst h
      simp only [mapSet, mapKeys, if_true, List.map_cons, List.mem_cons]
      tauto
    · simp only [mapSet, mapKeys, if_neg h, List.map_cons, List.mem_cons, ih]
      tauto

theorem mapGet_eq_none_iff {β : Type} (m : List (GoString × β)) (k : GoString) :
    mapGet m k = none ↔ k ∉ mapKeys m := by
  induction m with
  | nil => simp [mapGet, mapKeys]
  | cons hd t ih =>
    obtain ⟨k₀, v₀⟩ := hd
    simp only [mapKeys] at ih
    by_cases h : k₀ = k
    · simp [mapGet, mapKeys, h]
    · simp only [mapGet, if_neg h, ih, mapKeys, List.map_cons, List.mem_cons, not_or]
      constructor
      · exact fun h1 => ⟨fun h2 => h h2.symm, h1⟩
      · exact fun h1 => h1.2

/-! ## Library routines -/

theorem Split_ne_nil (s : GoString) (sep : UInt8) : Split s sep ≠ [] := by
  induction s with
  | nil => simp [Split]
  | cons c cs ih =>
    unfold Split
    by_cases h : c = sep
    · simp [h]
    · rw [if_neg h]
      cases hs : Split cs sep with
      | nil => exact absurd hs ih
      | cons a t => simp

theorem lastToken_isSome (line : GoString) : ∃ tok, lastToken line = some tok := by
  unfold lastToken
  cases h : (Split line 32).getLast? with
  | none => exact absurd (List.getLast?_eq_none_iff.1 h) (Split_ne_nil line 32)
  | some tok => exact ⟨tok, rfl⟩

theorem extScan_suffix (before acc : GoString) :
    extScan before acc = [] ∨ ∃ pre, before.reverse ++ acc = pre ++ extScan before acc := by
  induction before generalizing acc with
  | nil => left; rfl
  | cons c before ih =>
    unfold extScan
    by_cases h1 : c = 47
    · left; simp [h1]
    · rw [if_neg h1]
      by_cases h2 : c = 46
      · right
        rw [if_pos h2]
        exact ⟨before.reverse, by simp⟩
      · rw [if_neg h2]
        rcases ih (c :: acc) with h | ⟨pre, h⟩
        · exact Or.inl h
        · exact Or.inr ⟨pre, by simpa using h⟩

theorem utf8_go : utf8 ".go" = [46, 103, 111] := by decide

theorem utf8_test_go : utf8 "_test.go" = [95, 116, 101, 115, 116, 46, 103, 111] := by decide

/-- A path with extension `.go` ends in `.go`. -/
theorem Ext_go_suffix (path : GoString) (h : Ext path = utf8 ".go") :
    ∃ pre, path = pre ++ [46, 103, 111] := by
  unfold Ext at h
  rcases extScan_suffix path.reverse [] with h0 | ⟨pre, h1⟩
  · rw [h0, utf8_go] at h
    exact absurd h (by simp)
  · rw [h, utf8_go] at h1
    exact ⟨pre, by simpa using h1⟩

theorem Ext_go_length (path : GoString) (h : Ext path = utf8 ".go") : 3 ≤ path.length := by
  obtain ⟨pre, rfl⟩ := Ext_go_suffix path h
  simp

theorem eligible_iff (tok : GoString) :
    eligible tok = true ↔ Ext tok = utf8 ".go" ∧ HasSuffix tok (utf8 "_test.go") = false := by
  unfold eligible
  by_cases h1 : Ext tok = utf8 ".go" <;> by_cases h2 : HasSuffix tok (utf8 "_test.go") = true <;>
    simp [h1, h2]

/-! ## `parseDiff`: the branches of the loop -/

/-- The branch of a `diff --git` line, by cases of its last token. -/
theorem headerStep_eq (mod : GoString) (st : ParseState) (line tok : GoString)
    (htok : lastToken line = some tok) :
    headerStep mod st line =
      if eligible tok = true then
        (match mapGet st.diffs tok with
          | some _ => some st
          | none => some { diffs := mapSet st.diffs (qualify mod tok) [],
                           newp := qualify mod tok, trueFile := true })
      else some { st with trueFile := false } := by
  unfold lastToken at htok
  unfold headerStep
  rw [htok]
  by_cases he : eligible tok = true
  · rw [if_pos he]
    have he' := he
    unfold eligible at he'
    simp only [Bool.not_eq_true', Bool.or_eq_false_iff] at he'
    have hcond : (decide (Ext tok ≠ utf8 ".go") || HasSuffix tok (utf8 "_test.go")) = false := by
      simp [he'.1, he'.2]
    simp only [hcond, Bool.false_eq_true, if_false]
    have hlen := Ext_go_length tok ((eligible_iff tok).1 he).1
    have hslice : sliceFrom tok 2 = some (tok.drop 2) := by
      unfold sliceFrom
      rw [if_pos (by omega)]
    cases hget : mapGet st.diffs tok with
    | some v => rfl
    | none => simp only [hslice, qualify]
  · rw [if_neg he]
    have hcond : (decide (Ext tok ≠ utf8 ".go") || HasSuffix tok (utf8 "_test.go")) = true := by
      unfold eligible at he
      by_cases h1 : Ext tok = utf8 ".go" <;>
        by_cases h2 : HasSuffix tok (utf8 "_test.go") = true <;> simp_all
    simp only [hcond, if_true]

theorem parseStep_total (mod : GoString) (st : ParseState) (line : GoString) :
    ∃ st', parseStep mod st line = some st' := by
  unfold parseStep
  by_cases h1 : HasPrefix line (utf8 "diff --git") = true
  · rw [if_pos h1]
    obtain ⟨tok, htok⟩ := lastToken_isSome line
    rw [headerStep_eq mod st line tok htok]
    by_cases he : eligible tok = true
    · rw [if_pos he]
      cases mapGet st.diffs tok with
      | some v => exact ⟨_, rfl⟩
      | none => exact ⟨_, rfl⟩
    · rw [if_neg he]
      exact ⟨_, rfl⟩
  · rw [if_neg h1]
    by_cases h2 : HasPrefix line (utf8 "@@") = true
    · rw [if_pos h2]; exact ⟨_, rfl⟩
    · rw [if_neg h2]; exact ⟨_, rfl⟩

theorem parseLoop_total (mod : GoString) (lines : List GoString) (st : ParseState) :
    ∃ st', parseLoop mod lines st = some st' := by
  induction lines generalizing st with
  | nil => exact ⟨st, rfl⟩
  | cons l ls ih =>
    obtain ⟨st1, h1⟩ := parseStep_total mod st l
    obtain ⟨st2, h2⟩ := ih st1
    exact ⟨st2, by simp [parseLoop, h1, h2]⟩

theorem parseLoop_append (mod : GoString) (xs ys : List GoString) (st : ParseState) :
    parseLoop mod (xs ++ ys) st = (parseLoop mod xs st).bind (parseLoop mod ys) := by
  induction xs generalizing st with
  | nil => simp [parseLoop]
  | cons l ls ih =>
    simp only [List.cons_append, parseLoop]
    cases parseStep mod st l with
    | none => rfl
    | some st' => exact ih st'


/-! ## Machine integers -/

theorem wrap64_of_inInt64 (x : Int) (h : inInt64 x) : wrap64 x = x := by
  obtain ⟨h1, h2⟩ := h
  unfold wrap64
  rw [Int.emod_eq_of_lt (by omega) (by omega)]
  omega

theorem selects_eq (line : lineInfo) (block : ProfileBlock) :
    selects line block = decide (block.EndLine ≤ add64 line.end_ line.start) := by
  unfold selects
  by_cases h : line.start ≥ block.StartLine
  · simp [h]
  · have h2 : line.start < block.StartLine := by omega
    simp [h2]

theorem selects_iff (line : lineInfo) (block : ProfileBlock)
    (h : inInt64 (line.end_ + line.start)) :
    selects line block = true ↔ block.EndLine ≤ line.start + line.end_ := by
  rw [selects_eq, add64, wrap64_of_inInt64 _ h, decide_eq_true_iff, Int.add_comm]

/-! ## The matcher -/

theorem render_append (xs ys : List Emitted) : render (xs ++ ys) = render xs ++ render ys := by
  induction xs with
  | nil => simp [render]
  | cons e es ih => simp [render, ih, List.append_assoc]

theorem emits_append (st : MatchState) (e : Emitted) (bufferNew : GoString)
    (seenNew : List (GoString × List Nat)) (f : GoString) (i : Nat) :
    emits { fname2index := seenNew, buffer := bufferNew, emitted := st.emitted ++ [e] } f i
      ↔ emits st f i ∨ (f = e.file ∧ i = e.index) := by
  unfold emits
  constructor
  · rintro ⟨e', he', hf, hi⟩
    simp only [List.mem_append, List.mem_singleton] at he'
    rcases he' with he' | he'
    · exact Or.inl ⟨e', he', hf, hi⟩
    · subst he'
      exact Or.inr ⟨hf.symm, hi.symm⟩
  · rintro (⟨e', he', hf, hi⟩ | ⟨hf, hi⟩)
    · exact ⟨e', by simp [he'], hf, hi⟩
    · exact ⟨e, by simp, hf.symm, hi.symm⟩

theorem blockStep_spec (profiles : List Profile) (p : Profile) (hp : p ∈ profiles)
    (line : lineInfo) (st : MatchState) (ib : Nat × ProfileBlock)
    (hib : p.Blocks[ib.1]? = some ib.2) (h : MatchInv profiles st) :
    MatchInv profiles (blockStep p.FileName line st ib) ∧
      ∀ f i, emits (blockStep p.FileName line st ib) f i ↔
        emits st f i ∨ (f = p.FileName ∧ i = ib.1 ∧ selects line ib.2 = true) := by
  unfold blockStep
  by_cases hseen : ib.1 ∈ seenOf st p.FileName
  · rw [if_pos hseen]
    refine ⟨h, fun f i => ⟨Or.inl, ?_⟩⟩
    rintro (h1 | ⟨hf, hi, _⟩)
    · exact h1
    · subst hf; subst hi
      exact (h.seen_iff _ _).1 hseen
  · rw [if_neg hseen]
    by_cases hsel : selects line ib.2 = true
    · rw [if_pos hsel]
      have hem := emits_append st ⟨p.FileName, ib.1, ib.2⟩ (st.buffer ++ Sprintf p.FileName ib.2)
        (mapSet st.fname2index p.FileName (ib.1 :: seenOf st p.FileName))
      refine ⟨⟨?_, ?_, ?_, ?_⟩, ?_⟩
      · intro f i
        rw [hem]
        by_cases hf : f = p.FileName
        · subst hf
          simp only [seenOf, mapGet_mapSet_same, Option.getD_some, List.mem_cons, true_and]
          rw [← h.seen_iff]
          simp only [seenOf]
          tauto
        · simp only [seenOf, mapGet_mapSet_other _ _ _ _ hf]
          have h0 := h.seen_iff f i
          simp only [seenOf] at h0
          rw [h0]
          simp [hf]
      · simp only [List.map_append, List.map_cons, List.map_nil]
        rw [List.nodup_append]
        refine ⟨h.nodup, by simp, ?_⟩
        intro a ha hb
        simp only [List.mem_singleton] at hb
        subst hb
        simp only [List.mem_map] at ha
        obtain ⟨e, he, heq⟩ := ha
        simp only [Prod.mk.injEq] at heq
        exact hseen ((h.seen_iff _ _).2 ⟨e, he, heq.1, heq.2⟩)
      · simp only [render_append, h.text, render, List.append_assoc, List.append_nil]
      · intro e he
        simp only [List.mem_append, List.mem_singleton] at he
        rcases he with he | he
        · exact h.block_of e he
        · subst he
          exact ⟨p, hp, rfl, hib⟩
      · intro f i
        rw [hem]
        simp [hsel]
    · rw [if_neg hsel]
      refine ⟨h, fun f i => ⟨Or.inl, ?_⟩⟩
      rintro (h1 | ⟨_, _, h3⟩)
      · exact h1
      · exact absurd h3 hsel

theorem foldl_spec {α : Type} (P : MatchState → Prop) (step : MatchState → α → MatchState)
    (Q : α → GoString → Nat → Prop) (xs : List α)
    (hstep : ∀ st x, x ∈ xs → P st →
      P (step st x) ∧ ∀ f i, emits (step st x) f i ↔ emits st f i ∨ Q x f i) :
    ∀ st, P st →
      P (xs.foldl step st) ∧
        ∀ f i, emits (xs.foldl step st) f i ↔ emits st f i ∨ ∃ x ∈ xs, Q x f i := by
  induction xs with
  | nil => intro st h; simp [h]
  | cons x xs ih =>
    intro st h
    obtain ⟨h1, h2⟩ := hstep st x (by simp) h
    obtain ⟨h3, h4⟩ := ih (fun st' x' hx' => hstep st' x' (by simp [hx'])) (step st x) h1
    refine ⟨h3, fun f i => ?_⟩
    rw [List.foldl_cons, h4, h2]
    simp only [List.mem_cons, exists_eq_or_imp]
    tauto

/-- What one changed range of a file adds to the output: block `i` of the profile is
selected by the range. -/
theorem blocksLoop_spec (profiles : List Profile) (p : Profile) (hp : p ∈ profiles)
    (st : MatchState) (line : lineInfo) (h : MatchInv profiles st) :
    MatchInv profiles (blocksLoop p st line) ∧
      ∀ f i, emits (blocksLoop p st line) f i ↔
        emits st f i ∨
          (f = p.FileName ∧ ∃ b, p.Blocks[i]? = some b ∧ selects line b = true) := by
  have key := foldl_spec (MatchInv profiles) (blockStep p.FileName line)
    (fun ib f i => f = p.FileName ∧ i = ib.1 ∧ selects line ib.2 = true) p.Blocks.enum
    (fun st' ib hib h' =>
      blockStep_spec profiles p hp line st' ib (List.mk_mem_enum_iff_getElem?.1 hib) h') st h
  refine ⟨key.1, fun f i => ?_⟩
  rw [blocksLoop, key.2]
  constructor
  · rintro (h1 | ⟨ib, hib, hf, hi, hsel⟩)
    · exact Or.inl h1
    · subst hi
      exact Or.inr ⟨hf, ib.2, List.mk_mem_enum_iff_getElem?.1 hib, hsel⟩
  · rintro (h1 | ⟨hf, b, hb, hsel⟩)
    · exact Or.inl h1
    · exact Or.inr ⟨(i, b), List.mk_mem_enum_iff_getElem?.2 hb, hf, rfl, hsel⟩

theorem matchInv_ensure (profiles : List Profile) (st : MatchState) (k : GoString)
    (hk : mapGet st.fname2index k = none) (h : MatchInv profiles st) :
    MatchInv profiles { st with fname2index := mapSet st.fname2index k [] } := by
  refine ⟨fun f i => ?_, h.nodup, h.text, h.block_of⟩
  have h0 := h.seen_iff f i
  by_cases hf : f = k
  · subst hf
    simp only [seenOf, hk, Option.getD_none] at h0
    simp only [seenOf, mapGet_mapSet_same, Option.getD_some]
    exact h0
  · simp only [seenOf] at h0
    simp only [seenOf, mapGet_mapSet_other _ _ _ _ hf]
    exact h0

theorem profileStep_spec (profiles : List Profile) (p : Profile) (hp : p ∈ profiles)
    (fpath : GoString) (lines : List lineInfo) (st : MatchState) (h : MatchInv profiles st) :
    MatchInv profiles (profileStep fpath lines st p) ∧
      ∀ f i, emits (profileStep fpath lines st p) f i ↔
        emits st f i ∨
          (p.FileName = fpath ∧ f = p.FileName ∧
            ∃ line ∈ lines, ∃ b, p.Blocks[i]? = some b ∧ selects line b = true) := by
  unfold profileStep
  by_cases hname : p.FileName = fpath
  · rw [if_neg (not_not.2 hname)]
    have hloop : ∀ st1 : MatchState, MatchInv profiles st1 →
        MatchInv profiles (lines.foldl (blocksLoop p) st1) ∧
          ∀ f i, emits (lines.foldl (blocksLoop p) st1) f i ↔
            emits st1 f i ∨ ∃ line ∈ lines,
              (f = p.FileName ∧ ∃ b, p.Blocks[i]? = some b ∧ selects line b = true) :=
      foldl_spec (MatchInv profiles) (blocksLoop p)
        (fun line f i => f = p.FileName ∧ ∃ b, p.Blocks[i]? = some b ∧ selects line b = true)
        lines (fun st' line _ h' => blocksLoop_spec profiles p hp st' line h')
    have hfin : ∀ st1 : MatchState, MatchInv profiles st1 → st1.emitted = st.emitted →
        MatchInv profiles (lines.foldl (blocksLoop p) st1) ∧
          ∀ f i, emits (lines.foldl (blocksLoop p) st1) f i ↔
            emits st f i ∨ (p.FileName = fpath ∧ f = p.FileName ∧
              ∃ line ∈ lines, ∃ b, p.Blocks[i]? = some b ∧ selects line b = true) := by
      intro st1 h1 hem
      refine ⟨(hloop st1 h1).1, fun f i => ?_⟩
      rw [(hloop st1 h1).2]
      have : emits st1 f i ↔ emits st f i := by simp only [emits, hem]
      rw [this]
      constructor
      · rintro (h2 | ⟨line, hl, hf, hb⟩)
        · exact Or.inl h2
        · exact Or.inr ⟨hname, hf, line, hl, hb⟩
      · rintro (h2 | ⟨_, hf, line, hl, hb⟩)
        · exact Or.inl h2
        · exact Or.inr ⟨line, hl, hf, hb⟩
    cases hget : mapGet st.fname2index p.FileName with
    | some v => exact hfin st h rfl
    | none => exact hfin _ (matchInv_ensure profiles st p.FileName hget h) rfl
  · rw [if_pos hname]
    refine ⟨h, fun f i => ⟨Or.inl, ?_⟩⟩
    rintro (h1 | ⟨h2, _⟩)
    · exact h1
    · exact absurd h2 hname

theorem diffStep_spec (profiles : List Profile) (entry : GoString × List lineInfo)
    (st : MatchState) (h : MatchInv profiles st) :
    MatchInv profiles (diffStep profiles st entry) ∧
      ∀ f i, emits (diffStep profiles st entry) f i ↔
        emits st f i ∨ ∃ p ∈ profiles,
          (p.FileName = entry.1 ∧ f = p.FileName ∧
            ∃ line ∈ entry.2, ∃ b, p.Blocks[i]? = some b ∧ selects line b = true) :=
  foldl_spec (MatchInv profiles) (profileStep entry.1 entry.2)
    (fun p f i => p.FileName = entry.1 ∧ f = p.FileName ∧
      ∃ line ∈ entry.2, ∃ b, p.Blocks[i]? = some b ∧ selects line b = true)
    profiles (fun st' p hp h' => profileStep_spec profiles p hp entry.1 entry.2 st' h') st h

theorem matchInv_init (profiles : List Profile) : MatchInv profiles matchInit := by
  refine ⟨fun f i => ?_, by simp [matchInit], by simp [matchInit, render], by simp [matchInit]⟩
  simp [seenOf, matchInit, mapGet, emits]

/-- The invariant holds at the end of the loops, and the blocks written are those of
the profiles named by a key of the map that one of the ranges of that key selects. -/
theorem matcher_spec (diffs : Diff) (profiles : List Profile) :
    MatchInv profiles (matcher diffs profiles) ∧
      ∀ f i, emits (matcher diffs profiles) f i ↔
        ∃ entry ∈ diffs, ∃ p ∈ profiles,
          (p.FileName = entry.1 ∧ f = p.FileName ∧
            ∃ line ∈ entry.2, ∃ b, p.Blocks[i]? = some b ∧ selects line b = true) := by
  have key := foldl_spec (MatchInv profiles) (diffStep profiles)
    (fun entry f i => ∃ p ∈ profiles,
      (p.FileName = entry.1 ∧ f = p.FileName ∧
        ∃ line ∈ entry.2, ∃ b, p.Blocks[i]? = some b ∧ selects line b = true))
    diffs (fun st' entry _ h' => diffStep_spec profiles entry st' h') matchInit
    (matchInv_init profiles)
  refine ⟨key.1, fun f i => ?_⟩
  rw [matcher, key.2]
  simp [emits, matchInit]

/-! ## Claims about the matcher -/

/-- C1: for every map `diffs` and every list of profiles (with pairwise distinct file
names or not), when no sum `start + length` of a range overflows `int64`, the matcher
writes a line for block `i` of file `f` if and only if `f` is a key of the map (bound to `lines`),
`f` is the `FileName` of a profile, and some range `r` of `lines` satisfies
`blocks[i].EndLine <= r.start + r.length`.  The coded condition equals
`bend <= line.end + line.start` for every range and block, and does not depend on the
`StartLine` of the block. -/
theorem C1_matcher_selects_by_end_line (diffs : Diff) (profiles : List Profile)
    (hov : NoOverflow diffs) :
    (∀ f i, emits (matcher diffs profiles) f i ↔
      ∃ lines, (f, lines) ∈ diffs ∧ ∃ p ∈ profiles, p.FileName = f ∧
        ∃ b, p.Blocks[i]? = some b ∧ ∃ r ∈ lines, b.EndLine ≤ r.start + r.end_) ∧
    (∀ line block, selects line block = decide (block.EndLine ≤ add64 line.end_ line.start)) ∧
    (∀ line block s, selects line { block with StartLine := s } = selects line block) := by
  refine ⟨fun f i => ?_, selects_eq, fun line block s => by simp [selects_eq]⟩
  rw [(matcher_spec diffs profiles).2]
  constructor
  · rintro ⟨entry, he, p, hp, hname, hf, line, hl, b, hb, hsel⟩
    obtain ⟨k, lines⟩ := entry
    simp only at hname hl
    refine ⟨lines, ?_, p, hp, hf.symm, b, hb, line, hl, ?_⟩
    · rw [hf, hname]; exact he
    · exact (selects_iff line b (hov _ he line hl)).1 hsel
  · rintro ⟨lines, he, p, hp, hf, b, hb, r, hr, hle⟩
    exact ⟨(f, lines), he, p, hp, hf, hf.symm, r, hr, b, hb,
      (selects_iff r b (hov _ he r hr)).2 hle⟩

/-- Witness of C1: the range `{start 12, length 3}` selects the block that ends at line
14 (index 0) and does not select the block that ends at line 20 (index 1). -/
theorem C1_matcher_selects_by_end_line_witness :
    NoOverflow [(xgo, [range12])] ∧
      emits (matcher [(xgo, [range12])] [⟨xgo, utf8 "set", [block14, block20]⟩]) xgo 0 ∧
      ¬ emits (matcher [(xgo, [range12])] [⟨xgo, utf8 "set", [block14, block20]⟩]) xgo 1 := by
  have h2 : NoOverflow [(xgo, [range12])] := by decide
  have key := (C1_matcher_selects_by_end_line [(xgo, [range12])]
    [⟨xgo, utf8 "set", [block14, block20]⟩] h2).1
  refine ⟨h2, (key xgo 0).2 ?_, fun h => ?_⟩
  · exact ⟨[range12], by simp, ⟨xgo, utf8 "set", [block14, block20]⟩, by simp, rfl, block14,
      rfl, range12, by simp, by decide⟩
  · obtain ⟨lines, hl, p, hp, _, b, hb, r, hr, hle⟩ := (key xgo 1).1 h
    simp only [List.mem_singleton, Prod.mk.injEq, true_and] at hl hp
    subst hl; subst hp
    simp only [List.mem_singleton] at hr
    subst hr
    simp only [List.getElem?_cons_succ, List.getElem?_cons_zero, Option.some.injEq] at hb
    subst hb
    revert hle
    decide

/-- C2: for every map and every list of profiles, the writes of the matcher are for
pairwise distinct (file name, block index) pairs, and the buffer holds the header and
one line per write: a block selected by one range is not written again by another. -/
theorem C2_matcher_emits_each_block_once (diffs : Diff) (profiles : List Profile) :
    ((matcher diffs profiles).emitted.map fun e => (e.file, e.index)).Nodup ∧
      (matcher diffs profiles).buffer
        = utf8 "mode: count\n" ++ render (matcher diffs profiles).emitted :=
  ⟨(matcher_spec diffs profiles).1.nodup, (matcher_spec diffs profiles).1.text⟩

/-- C3 (the code does not do this): with the one range `{start 12, length 3}` the
matcher writes the block of lines 1 to 2, which meets no changed range: no range `r`
has both `StartLine <= r.start + r.length` and `EndLine >= r.start`. -/
theorem C3_matcher_emits_block_above_every_range :
    emits (matcher [(xgo, [range12])] [⟨xgo, utf8 "set", [block2]⟩]) xgo 0 ∧
      parseText [(xgo, [range12])] [⟨xgo, utf8 "set", [block2]⟩]
        = utf8 "mode: count\nexample.com/m/pkg/x.go:1.1,2.1 1 0\n" ∧
      ¬ ∃ r ∈ [range12], block2.StartLine ≤ r.start + r.end_ ∧ block2.EndLine ≥ r.start := by
  decide

theorem profileStep_mode (fpath : GoString) (lines : List lineInfo) (st : MatchState)
    (p : Profile) (m : GoString) :
    profileStep fpath lines st { p with Mode := m } = profileStep fpath lines st p := rfl

theorem matcher_mode (diffs : Diff) (profiles : List Profile) (m : GoString) :
    matcher diffs (profiles.map fun p => { p with Mode := m }) = matcher diffs profiles := by
  unfold matcher
  congr 1
  funext st entry
  simp only [diffStep, List.foldl_map]
  rfl

/-- C8: for every input, the text built by `parse` is the line `mode: count` followed by
one line per write of the matcher, in order; each write is for a block of a profile of
that file, no (file, index) pair is written twice, and the line of a write is
`<file>:<startLine>.<startCol>,<endLine>.<endCol> <numStatements> <executionCount>` with
the values of the block in decimal and a final newline.  The text does not depend on the
`Mode` of the profiles.  The block `example.com/m/pkg/x.go:12.5,14.1 2 7` with the range
`{start 12, length 3}` gives `mode: count` and that line. -/
theorem C8_parse_text_is_header_and_block_lines (diffs : Diff) (profiles : List Profile) :
    parseText diffs profiles
        = utf8 "mode: count\n" ++ render (matcher diffs profiles).emitted ∧
      (∀ e ∈ (matcher diffs profiles).emitted,
        ∃ p ∈ profiles, p.FileName = e.file ∧ p.Blocks[e.index]? = some e.block) ∧
      ((matcher diffs profiles).emitted.map fun e => (e.file, e.index)).Nodup ∧
      (∀ e es, render (e :: es)
        = e.file ++ utf8 ":" ++ utf8 (Int.repr e.block.StartLine) ++ utf8 "."
            ++ utf8 (Int.repr e.block.StartCol) ++ utf8 "," ++ utf8 (Int.repr e.block.EndLine)
            ++ utf8 "." ++ utf8 (Int.repr e.block.EndCol) ++ utf8 " "
            ++ utf8 (Int.repr e.block.NumStmt) ++ utf8 " " ++ utf8 (Int.repr e.block.Count)
            ++ utf8 "\n" ++ render es) ∧
      (∀ m, parseText diffs (profiles.map fun p => { p with Mode := m })
        = parseText diffs profiles) ∧
      parseText [(xgo, [range12])] [⟨xgo, utf8 "atomic", [block14]⟩]
        = utf8 "mode: count\nexample.com/m/pkg/x.go:12.5,14.1 2 7\n" := by
  have h := (matcher_spec diffs profiles).1
  refine ⟨h.text, h.block_of, h.nodup, fun e es => rfl, fun m => ?_, by decide⟩
  simp only [parseText, matcher_mode]

/-- C10 (the code does not do this): `parse` opens `increment_coverage.out` without
`os.O_TRUNC` and writes from offset 0. With an empty map the text written is
`mode: count` alone; an absent file then holds exactly that text, but a file that held a
header and a block line before holds them still: the block line survives. -/
theorem C10_parse_keeps_tail_of_existing_file :
    parseText [] [] = utf8 "mode: count\n" ∧
      parse [] [] none = utf8 "mode: count\n" ∧
      parse [] [] (some (utf8 "mode: count\nexample.com/m/pkg/x.go:12.5,14.1 2 7\n"))
        = utf8 "mode: count\nexample.com/m/pkg/x.go:12.5,14.1 2 7\n" ∧
      parse [] [] (some (utf8 "mode: count\nexample.com/m/pkg/x.go:12.5,14.1 2 7\n"))
        ≠ parseText [] [] := by
  decide

theorem hunkStep_cases (st : ParseState) (line : GoString) :
    hunkStep st line = st ∨
      (st.trueFile = true ∧ ∃ r, hunkOf line = some r ∧ hunkStep st line = appendRange st r) := by
  unfold hunkStep
  by_cases h : st.trueFile = true
  · simp only [h, Bool.not_true, Bool.false_eq_true, if_false]
    cases hh : hunkOf line with
    | none => exact Or.inl rfl
    | some r => exact Or.inr ⟨trivial, r, rfl, rfl⟩
  · simp [h]

theorem hunkStep_of_not_trueFile (st : ParseState) (line : GoString)
    (h : st.trueFile = false) : hunkStep st line = st := by
  simp [hunkStep, h]

/-- A line that does not start with `diff --git` is skipped or handled by the branch of
`@@`. -/
theorem parseStep_of_not_header (mod : GoString) (st : ParseState) (line : GoString)
    (h : isHeader line = false) :
    parseStep mod st line = some st ∨
      (HasPrefix line (utf8 "@@") = true ∧ parseStep mod st line = some (hunkStep st line)) := by
  unfold isHeader at h
  unfold parseStep
  simp only [h, Bool.false_eq_true, if_false]
  by_cases h2 : HasPrefix line (utf8 "@@") = true
  · exact Or.inr ⟨h2, by rw [if_pos h2]⟩
  · exact Or.inl (by rw [if_neg h2])

theorem parseStep_of_header (mod : GoString) (st : ParseState) (line : GoString)
    (h : isHeader line = true) : parseStep mod st line = headerStep mod st line := by
  unfold isHeader at h
  unfold parseStep
  rw [if_pos h]

theorem ParseInv.mono {mod : GoString} {seen seen' : List GoString} {st : ParseState}
    (h : ParseInv mod seen st) (hsub : ∀ l ∈ seen, l ∈ seen') : ParseInv mod seen' st :=
  ⟨fun k hk => by
    obtain ⟨line, hl, tok, he, hq⟩ := h.keys k hk
    exact ⟨line, hsub line hl, tok, he, hq⟩, h.newp⟩

theorem appendRange_inv (mod : GoString) (seen : List GoString) (st : ParseState)
    (r : lineInfo) (h : ParseInv mod seen st) (ht : st.trueFile = true) :
    ParseInv mod seen (appendRange st r) := by
  have hn := h.newp ht
  refine ⟨fun k hk => ?_, fun _ => ?_⟩
  · simp only [appendRange, mem_mapKeys_mapSet] at hk
    rcases hk with hk | hk
    · exact h.keys k hk
    · subst hk
      exact h.keys _ hn
  · simp only [appendRange, mem_mapKeys_mapSet]
    exact Or.inl hn

theorem parseStep_inv (mod : GoString) (seen : List GoString) (st st' : ParseState)
    (line : GoString) (h : ParseInv mod seen st) (hstep : parseStep mod st line = some st') :
    ParseInv mod (seen ++ [line]) st' := by
  have hmono : ParseInv mod (seen ++ [line]) st := h.mono (fun l hl => by simp [hl])
  by_cases hh : isHeader line = true
  · rw [parseStep_of_header mod st line hh] at hstep
    obtain ⟨tok, htok⟩ := lastToken_isSome line
    rw [headerStep_eq mod st line tok htok] at hstep
    by_cases he : eligible tok = true
    · rw [if_pos he] at hstep
      cases hget : mapGet st.diffs tok with
      | some v =>
        rw [hget] at hstep
        simp only [Option.some.injEq] at hstep
        subst hstep
        exact hmono
      | none =>
        rw [hget] at hstep
        simp only [Option.some.injEq] at hstep
        subst hstep
        refine ⟨fun k hk => ?_, fun _ => ?_⟩
        · simp only [mem_mapKeys_mapSet] at hk
          rcases hk with hk | hk
          · exact hmono.keys k hk
          · exact ⟨line, by simp, tok, ⟨hh, htok, he⟩, hk⟩
        · simp [mem_mapKeys_mapSet]
    · rw [if_neg he] at hstep
      simp only [Option.some.injEq] at hstep
      subst hstep
      exact ⟨hmono.keys, fun hf => by simp at hf⟩
  · have hh' : isHeader line = false := by simpa using hh
    rcases parseStep_of_not_header mod st line hh' with h1 | ⟨_, h1⟩
    · rw [h1] at hstep
      simp only [Option.some.injEq] at hstep
      subst hstep
      exact hmono
    · rw [h1] at hstep
      simp only [Option.some.injEq] at hstep
      subst hstep
      rcases hunkStep_cases st line with h2 | ⟨ht, r, _, h2⟩
      · rw [h2]; exact hmono
      · rw [h2]; exact appendRange_inv mod _ st r hmono ht

theorem parseLoop_inv (mod : GoString) (lines seen : List GoString) (st st' : ParseState)
    (h : ParseInv mod seen st) (hloop : parseLoop mod lines st = some st') :
    ParseInv mod (seen ++ lines) st' := by
  induction lines generalizing seen st with
  | nil =>
    simp only [parseLoop, Option.some.injEq] at hloop
    subst hloop
    simpa using h
  | cons l ls ih =>
    obtain ⟨st1, h1⟩ := parseStep_total mod st l
    simp only [parseLoop, h1] at hloop
    have := ih (seen ++ [l]) st1 (parseStep_inv mod seen st st1 l h h1) hloop
    simpa using this

theorem parseInv_init (mod : GoString) : ParseInv mod [] parseInit :=
  ⟨fun k hk => by simp [parseInit, mapKeys] at hk, fun h => by simp [parseInit] at h⟩

/-- Lines without a `diff --git` line leave a state with `trueFile` unset as it is. -/
theorem parseLoop_not_trueFile (mod : GoString) (hs : List GoString) (st : ParseState)
    (ht : st.trueFile = false) (hhs : ∀ l ∈ hs, isHeader l = false) :
    parseLoop mod hs st = some st := by
  induction hs with
  | nil => rfl
  | cons l ls ih =>
    have hl : isHeader l = false := hhs l (by simp)
    have hstep : parseStep mod st l = some st := by
      rcases parseStep_of_not_header mod st l hl with h1 | ⟨_, h1⟩
      · exact h1
      · rw [h1, hunkStep_of_not_trueFile st l ht]
    simp only [parseLoop, hstep]
    exact ih (fun l' hl' => hhs l' (by simp [hl']))

/-! ## Claims about the sections of the diff -/

/-- C7: a line that starts with `@@` and comes before every `diff --git` line, or under
a `diff --git` line whose last token is not eligible, leaves the map as it is: lines
without a `diff --git` line leave the initial state unchanged; an ineligible `diff --git`
line followed by such lines only unsets `trueFile`.  When `trueFile` is set after some
lines, `newp` is a key of the map and is the key made by an eligible `diff --git` line
among them; and a line other than a `diff --git` line either changes nothing or, with
`trueFile` set, appends one range to the sequence of the key `newp`. -/
theorem C7_hunks_outside_eligible_section_are_ignored (mod : GoString) :
    (∀ hs, (∀ l ∈ hs, isHeader l = false) → parseLoop mod hs parseInit = some parseInit) ∧
    (∀ st h tok hs, isHeader h = true → lastToken h = some tok → eligible tok = false →
      (∀ l ∈ hs, isHeader l = false) →
      parseLoop mod (h :: hs) st = some { st with trueFile := false }) ∧
    (∀ lines st, parseLoop mod lines parseInit = some st → st.trueFile = true →
      st.newp ∈ mapKeys st.diffs ∧
        ∃ line ∈ lines, ∃ tok, EligibleHeader line tok ∧ st.newp = qualify mod tok) ∧
    (∀ st line, isHeader line = false →
      parseStep mod st line = some st ∨
        (st.trueFile = true ∧ ∃ r, parseStep mod st line = some (appendRange st r))) ∧
    (∀ st r, appendRange st r =
      ⟨mapSet st.diffs st.newp ((mapGet st.diffs st.newp).getD [] ++ [r]), st.newp,
        st.trueFile⟩) := by
  refine ⟨fun hs hhs => parseLoop_not_trueFile mod hs parseInit rfl hhs, ?_, ?_, ?_,
    fun _ _ => rfl⟩
  · intro st h tok hs hh htok he hhs
    have hstep : parseStep mod st h = some { st with trueFile := false } := by
      rw [parseStep_of_header mod st h hh, headerStep_eq mod st h tok htok, if_neg (by simp [he])]
    simp only [parseLoop, hstep]
    exact parseLoop_not_trueFile mod hs _ rfl hhs
  · intro lines st hloop ht
    have hinv := parseLoop_inv mod lines [] parseInit st (parseInv_init mod) hloop
    simp only [List.nil_append] at hinv
    exact ⟨hinv.newp ht, hinv.keys _ (hinv.newp ht)⟩
  · intro st line hl
    rcases parseStep_of_not_header mod st line hl with h1 | ⟨_, h1⟩
    · exact Or.inl h1
    · rcases hunkStep_cases st line with h2 | ⟨ht, r, _, h2⟩
      · exact Or.inl (by rw [h1, h2])
      · exact Or.inr ⟨ht, r, by rw [h1, h2]⟩

/-- Witness of C7: a hunk header before every `diff --git` line, one under a test file
and one under a file that is not a Go file add nothing to the map. -/
theorem C7_hunks_outside_eligible_section_are_ignored_witness :
    parseLoop (utf8 "example.com/m") [utf8 "@@ -1 +1 @@"] parseInit = some parseInit ∧
      parseLoop (utf8 "example.com/m")
          [utf8 "diff --git a/x_test.go b/x_test.go", utf8 "@@ -3 +3,2 @@"]
          ⟨[(xgo, [range12])], xgo, true⟩
        = some ⟨[(xgo, [range12])], xgo, false⟩ ∧
      parseDiff (utf8 "example.com/m")
          (utf8 "@@ -1 +1 @@\ndiff --git a/README.md b/README.md\n@@ -3 +3,2 @@\n")
        = some [] := by
  have key := C7_hunks_outside_eligible_section_are_ignored (utf8 "example.com/m")
  refine ⟨key.1 [utf8 "@@ -1 +1 @@"] (by decide), ?_, by decide⟩
  exact key.2.1 ⟨[(xgo, [range12])], xgo, true⟩ (utf8 "diff --git a/x_test.go b/x_test.go")
    (utf8 "b/x_test.go") [utf8 "@@ -3 +3,2 @@"] (by decide) (by decide) (by decide) (by decide)

/-- C9: when no line of the diff text starts with `diff --git`, `parseDiff` returns the
empty map; for the empty map, and whenever the matcher selects no block, the text
built by `parse` is exactly the line `mode: count`, for every list of profiles. -/
theorem C9_no_section_gives_header_only (mod diff : GoString)
    (hno : ∀ l ∈ ScanLines diff, isHeader l = false) :
    parseDiff mod diff = some [] ∧
      (∀ profiles, parseText [] profiles = utf8 "mode: count\n") ∧
      (∀ diffs profiles, (∀ f i, ¬ emits (matcher diffs profiles) f i) →
        parseText diffs profiles = utf8 "mode: count\n") := by
  refine ⟨?_, fun _ => rfl, fun diffs profiles hnone => ?_⟩
  · unfold parseDiff
    rw [parseLoop_not_trueFile mod (ScanLines diff) parseInit rfl hno]
    rfl
  · have htext := (matcher_spec diffs profiles).1.text
    have hemp : (matcher diffs profiles).emitted = [] := by
      cases hem : (matcher diffs profiles).emitted with
      | nil => rfl
      | cons e es => exact absurd ⟨e, by simp [hem], rfl, rfl⟩ (hnone e.file e.index)
    rw [parseText, htext, hemp]
    simp [render]

/-- Witness of C9: a diff text of three lines, none of which starts with `diff --git`. -/
theorem C9_no_section_gives_header_only_witness :
    (∀ l ∈ ScanLines (utf8 "index 1..2 100644\n@@ -1 +1 @@\n+x\n"), isHeader l = false) ∧
      parseDiff (utf8 "example.com/m") (utf8 "index 1..2 100644\n@@ -1 +1 @@\n+x\n") = some [] ∧
      parseText [] [⟨xgo, utf8 "set", [block14]⟩] = utf8 "mode: count\n" :=
  ⟨by decide,
    (C9_no_section_gives_header_only (utf8 "example.com/m")
      (utf8 "index 1..2 100644\n@@ -1 +1 @@\n+x\n") (by decide)).1,
    (C9_no_section_gives_header_only (utf8 "example.com/m")
      (utf8 "index 1..2 100644\n@@ -1 +1 @@\n+x\n") (by decide)).2.1 _⟩

/-! ## Paths -/

theorem Split_append_sep (a b : GoString) (sep : UInt8) :
    Split (a ++ sep :: b) sep = Split a sep ++ Split b sep := by
  induction a with
  | nil => simp [Split]
  | cons c a ih =>
    by_cases h : c = sep
    · subst h
      simp only [List.cons_append]
      rw [Split, if_pos rfl, ih]
      conv_rhs => rw [Split, if_pos rfl]
      rfl
    · simp only [List.cons_append]
      rw [Split, if_neg h, ih]
      conv_rhs => rw [Split, if_neg h]
      cases hs : Split a sep with
      | nil => exact absurd hs (Split_ne_nil a sep)
      | cons x t => rfl

/-- Appending a byte other than the separator appends it to the last piece. -/
theorem Split_snoc (s : GoString) (c sep : UInt8) (hc : c ≠ sep) :
    ∃ init e, Split s sep = init ++ [e] ∧ Split (s ++ [c]) sep = init ++ [e ++ [c]] := by
  induction s with
  | nil => exact ⟨[], [], by simp [Split], by simp [Split, hc]⟩
  | cons d s ih =>
    obtain ⟨init, e, h1, h2⟩ := ih
    by_cases hd : d = sep
    · refine ⟨[] :: init, e, ?_, ?_⟩
      · rw [Split, if_pos hd, h1]; rfl
      · rw [List.cons_append, Split, if_pos hd, h2]; rfl
    · cases init with
      | nil =>
        refine ⟨[], d :: e, ?_, ?_⟩
        · rw [Split, if_neg hd, h1]; rfl
        · rw [List.cons_append, Split, if_neg hd, h2]; rfl
      | cons i is =>
        refine ⟨(d :: i) :: is, e, ?_, ?_⟩
        · rw [Split, if_neg hd, h1]; rfl
        · rw [List.cons_append, Split, if_neg hd, h2]; rfl

theorem Split_last_aux (s : GoString) (sep : UInt8) (init : List GoString) (e : GoString)
    (h : Split s sep = init ++ [e]) : (init = [] → e = s) ∧ e <:+ s := by
  induction s generalizing init e with
  | nil =>
    have : init ++ [e] = [[]] := by rw [← h]; rfl
    cases init with
    | nil => simp at this; subst this; exact ⟨fun _ => rfl, List.suffix_refl _⟩
    | cons i is => simp at this
  | cons d s ih =>
    by_cases hd : d = sep
    · rw [Split, if_pos hd] at h
      cases init with
      | nil =>
        simp only [List.nil_append, List.cons.injEq] at h
        exact absurd h.2 (Split_ne_nil s sep)
      | cons i is =>
        simp only [List.cons_append, List.cons.injEq] at h
        exact ⟨fun hi => by simp at hi, (ih is e h.2).2.trans (List.suffix_cons d s)⟩
    · rw [Split, if_neg hd] at h
      cases hs : Split s sep with
      | nil => exact absurd hs (Split_ne_nil s sep)
      | cons x t =>
        rw [hs] at h
        simp only at h
        cases init with
        | nil =>
          simp only [List.nil_append, List.cons.injEq] at h
          obtain ⟨h1, h2⟩ := h
          subst h2
          have hx := (ih [] x (by rw [hs]; rfl)).1 rfl
          rw [← h1, hx]
          exact ⟨fun _ => rfl, List.suffix_refl _⟩
        | cons i is =>
          simp only [List.cons_append, List.cons.injEq] at h
          have := (ih (x :: is) e (by rw [hs, h.2]; rfl)).2
          exact ⟨fun hi => by simp at hi, this.trans (List.suffix_cons d s)⟩

/-- The last piece is a suffix of the string. -/
theorem Split_last_suffix (s : GoString) (sep : UInt8) (init : List GoString) (e : GoString)
    (h : Split s sep = init ++ [e]) : e <:+ s :=
  (Split_last_aux s sep init e h).2

/-- An element of a path that `filepath.Clean` copies: not empty, not `.` and not `..`. -/
theorem cleanElems_last (rooted : Bool) (init : List GoString) (E : GoString)
    (out : List GoString) (h0 : E ≠ []) (h1 : E ≠ [46]) (h2 : E ≠ [46, 46]) :
    ∃ out', cleanElems rooted (init ++ [E]) out = E :: out' := by
  induction init generalizing out with
  | nil =>
    refine ⟨out, ?_⟩
    simp [cleanElems, h0, h1, h2]
  | cons e es ih =>
    simp only [List.cons_append, cleanElems]
    by_cases c1 : e = [] ∨ e = [46]
    · rw [if_pos c1]; exact ih out
    · rw [if_neg c1]
      by_cases c2 : e = [46, 46]
      · rw [if_pos c2]
        cases out with
        | nil =>
          cases rooted
          · simpa using ih [e]
          · simpa using ih []
        | cons top out' =>
          simp only
          by_cases c3 : top = [46, 46]
          · rw [if_pos c3]; exact ih _
          · rw [if_neg c3]; exact ih _
      · rw [if_neg c2]; exact ih _

theorem intercalate_snoc (xs : List GoString) (E : GoString) :
    ∃ pre, List.intercalate [47] (xs ++ [E]) = pre ++ E ∧
      (pre = [] ∨ ∃ p0, pre = p0 ++ [47]) := by
  induction xs with
  | nil => exact ⟨[], by simp [List.intercalate], Or.inl rfl⟩
  | cons x xs ih =>
    obtain ⟨pre, hpre, hlast⟩ := ih
    have hcons : List.intercalate [47] (x :: (xs ++ [E]))
        = x ++ [47] ++ List.intercalate [47] (xs ++ [E]) := by
      cases xs with
      | nil => simp [List.intercalate]
      | cons y ys => simp [List.intercalate]
    refine ⟨x ++ [47] ++ pre, ?_, Or.inr ?_⟩
    · rw [List.cons_append, hcons, hpre]; simp
    · rcases hlast with h | ⟨p0, h⟩
      · exact ⟨x, by simp [h]⟩
      · exact ⟨x ++ [47] ++ p0, by simp [h]⟩

/-- The result of `filepath.Clean` ends with the last element of the path when that one
is a name, and the name stands at the start or after a `/`. -/
theorem Clean_last (path : GoString) (init : List GoString) (E : GoString)
    (hsplit : Split path 47 = init ++ [E])
    (h0 : E ≠ []) (h1 : E ≠ [46]) (h2 : E ≠ [46, 46]) :
    ∃ pre, Clean path = pre ++ E ∧ (pre = [] ∨ ∃ p0, pre = p0 ++ [47]) := by
  have hne : path ≠ [] := by
    rintro rfl
    have : init ++ [E] = [[]] := by rw [← hsplit]; rfl
    cases init with
    | nil => simp at this; exact h0 this
    | cons i is => simp at this
  obtain ⟨out', hout⟩ := cleanElems_last (decide (path.head? = some 47)) init E [] h0 h1 h2
  obtain ⟨pre, hpre, hlast⟩ := intercalate_snoc out'.reverse E
  unfold Clean
  rw [if_neg hne]
  simp only [hsplit, hout, List.reverse_cons, hpre]
  by_cases hr : path.head? = some 47
  · simp only [hr, decide_True, if_true]
    refine ⟨47 :: pre, by simp, Or.inr ?_⟩
    rcases hlast with h | ⟨p0, h⟩
    · exact ⟨[], by simp [h]⟩
    · exact ⟨47 :: p0, by simp [h]⟩
  · have : pre ++ E ≠ [] := by simp [h0]
    simp only [hr, decide_False, Bool.false_eq_true, if_false, if_neg this]
    exact ⟨pre, rfl, hlast⟩

theorem Join_last (a b : GoString) (init : List GoString) (E : GoString)
    (hsplit : Split b 47 = init ++ [E])
    (h0 : E ≠ []) (h1 : E ≠ [46]) (h2 : E ≠ [46, 46]) :
    ∃ pre, Join a b = pre ++ E ∧ (pre = [] ∨ ∃ p0, pre = p0 ++ [47]) := by
  have hb : b ≠ [] := by
    rintro rfl
    have : init ++ [E] = [[]] := by rw [← hsplit]; rfl
    cases init with
    | nil => simp at this; exact h0 this
    | cons i is => simp at this
  unfold Join
  by_cases ha : a ≠ []
  · rw [if_pos ha]
    exact Clean_last (a ++ 47 :: b) (Split a 47 ++ init) E
      (by rw [Split_append_sep, hsplit, List.append_assoc]) h0 h1 h2
  · rw [if_neg ha, if_pos hb]
    exact Clean_last b init E hsplit h0 h1 h2

theorem map_replace_eq (T0 T : GoString) (h : ReplaceAll T0 92 47 = T)
    (hT : ∀ t ∈ T, t ≠ 47) : T0 = T := by
  induction T0 generalizing T with
  | nil => simpa [ReplaceAll] using h
  | cons c cs ih =>
    cases T with
    | nil => simp [ReplaceAll] at h
    | cons t ts =>
      simp only [ReplaceAll, List.map_cons, List.cons.injEq] at h
      obtain ⟨hc, hcs⟩ := h
      have ht : t ≠ 47 := hT t (by simp)
      have hcne : c ≠ 92 := by
        intro h92
        rw [if_pos h92] at hc
        exact ht hc.symm
      rw [if_neg hcne] at hc
      rw [hc, ih ts hcs (fun t' ht' => hT t' (by simp [ht']))]

/-- The key made of an eligible token does not end in `_test.go`. -/
theorem qualify_not_test (mod tok : GoString) (he : eligible tok = true) :
    HasSuffix (qualify mod tok) (utf8 "_test.go") = false := by
  obtain ⟨hext, hsuf⟩ := (eligible_iff tok).1 he
  obtain ⟨p, hp⟩ := Ext_go_suffix tok hext
  have hlen := Ext_go_length tok hext
  -- the rest of the token ends with the byte `o`
  have hrest : tok.drop 2 = (p ++ [46, 103]).drop 2 ++ [111] := by
    rw [hp]
    have : p ++ [46, 103, 111] = (p ++ [46, 103]) ++ [111] := by simp
    rw [this, List.drop_append_of_le_length (by simp)]
  obtain ⟨init, e, _, hs2⟩ := Split_snoc ((p ++ [46, 103]).drop 2) 111 47 (by decide)
  rw [← hrest] at hs2
  have hE0 : e ++ [111] ≠ [] := by simp
  have hE1 : e ++ [111] ≠ [46] := by
    intro h
    have := congrArg List.getLast? h
    simp at this
  have hE2 : e ++ [111] ≠ [46, 46] := by
    intro h
    have := congrArg List.getLast? h
    simp at this
  obtain ⟨pre, hJ, hpre⟩ := Join_last mod (tok.drop 2) init (e ++ [111]) hs2 hE0 hE1 hE2
  have hEtok : (e ++ [111]) <:+ tok :=
    (Split_last_suffix _ 47 init _ hs2).trans (List.drop_suffix 2 tok)
  by_contra hcon
  have hcon' : HasSuffix (qualify mod tok) (utf8 "_test.go") = true := by simpa using hcon
  unfold HasSuffix at hcon'
  rw [List.isSuffixOf_iff_suffix] at hcon'
  obtain ⟨q, hq⟩ := hcon'
  unfold qualify at hq
  rw [hJ] at hq
  have hq' := hq.symm
  unfold ReplaceAll at hq'
  rw [List.map_eq_append_iff] at hq'
  obtain ⟨q0, T0, hsplit, _, hT0⟩ := hq'
  have hT : T0 = utf8 "_test.go" := map_replace_eq T0 _ hT0 (by decide)
  subst hT
  have hfin : utf8 "_test.go" <:+ e ++ [111] := by
    rcases List.append_eq_append_iff.1 hsplit with ⟨a', _, ha2⟩ | ⟨c', hc1, hc2⟩
    · exact ⟨a', ha2.symm⟩
    · rcases hpre with hp0 | ⟨p0, hp0⟩
      · rw [hp0] at hc1
        have : c' = [] := by
          cases c' with
          | nil => rfl
          | cons x xs => simp at hc1
        rw [this] at hc2
        exact ⟨[], by simpa using hc2⟩
      · by_cases hc' : c' = []
        · rw [hc'] at hc2
          exact ⟨[], by simpa using hc2⟩
        · exfalso
          have h47 : (47 : UInt8) ∈ c' := by
            have hl := congrArg List.getLast? hc1
            rw [hp0, List.getLast?_concat, List.getLast?_append] at hl
            cases hcl : c'.getLast? with
            | none => exact absurd (List.getLast?_eq_none_iff.1 hcl) hc'
            | some x =>
              rw [hcl] at hl
              simp only [Option.or_some, Option.some.injEq] at hl
              rw [hl]
              exact List.mem_of_getLast?_eq_some hcl
          have : (47 : UInt8) ∈ utf8 "_test.go" := by
            rw [hc2]; simp [h47]
          revert this
          decide
  have := hfin.trans hEtok
  rw [← List.isSuffixOf_iff_suffix] at this
  unfold HasSuffix at hsuf
  rw [hsuf] at this
  exact absurd this (by simp)

/-- C6: for every diff text `parseDiff` returns a map, and every key of that map is the
key made of the last token of a `diff --git` line of the text whose extension is `.go`
and which does not end in `_test.go`; no key of the map ends in `_test.go`; and a
`diff --git` line whose last token has another extension or ends in `_test.go` leaves
the map as it is. -/
theorem C6_keys_come_from_eligible_sections (mod diff : GoString) :
    ∃ d, parseDiff mod diff = some d ∧
      (∀ k ∈ mapKeys d, ∃ line ∈ ScanLines diff, ∃ tok,
        isHeader line = true ∧ lastToken line = some tok ∧ Ext tok = utf8 ".go" ∧
          HasSuffix tok (utf8 "_test.go") = false ∧ k = qualify mod tok) ∧
      (∀ k ∈ mapKeys d, HasSuffix k (utf8 "_test.go") = false) ∧
      (∀ st line tok, isHeader line = true → lastToken line = some tok →
        (Ext tok ≠ utf8 ".go" ∨ HasSuffix tok (utf8 "_test.go") = true) →
        ∃ st', parseStep mod st line = some st' ∧ st'.diffs = st.diffs) := by
  obtain ⟨st, hst⟩ := parseLoop_total mod (ScanLines diff) parseInit
  have hinv := parseLoop_inv mod (ScanLines diff) [] parseInit st (parseInv_init mod) hst
  simp only [List.nil_append] at hinv
  refine ⟨st.diffs, by simp [parseDiff, hst], fun k hk => ?_, fun k hk => ?_, ?_⟩
  · obtain ⟨line, hl, tok, ⟨hh, htok, he⟩, hq⟩ := hinv.keys k hk
    exact ⟨line, hl, tok, hh, htok, ((eligible_iff tok).1 he).1, ((eligible_iff tok).1 he).2, hq⟩
  · obtain ⟨line, _, tok, ⟨_, _, he⟩, hq⟩ := hinv.keys k hk
    rw [hq]
    exact qualify_not_test mod tok he
  · intro st' line tok hh htok hbad
    have he : ¬ eligible tok = true := by
      rw [eligible_iff]
      rintro ⟨h1, h2⟩
      rcases hbad with h | h
      · exact h h1
      · rw [h2] at h; exact absurd h (by simp)
    refine ⟨{ st' with trueFile := false }, ?_, rfl⟩
    rw [parseStep_of_header mod st' line hh, headerStep_eq mod st' line tok htok, if_neg he]

/-- Witness of C6: of the sections of a test file, of a text file and of a Go file,
only the last one makes a key, and that key does not end in `_test.go`. -/
theorem C6_keys_come_from_eligible_sections_witness :
    parseDiff (utf8 "example.com/m")
        (utf8 ("diff --git a/pkg/x_test.go b/pkg/x_test.go\n@@ -1 +1,2 @@\n" ++
          "diff --git a/README.md b/README.md\n@@ -4 +4 @@\n" ++
          "diff --git a/pkg/x.go b/pkg/x.go\n@@ -10,2 +12,3 @@\n"))
        = some [(xgo, [range12])] ∧
      HasSuffix xgo (utf8 "_test.go") = false := by
  have hev : parseDiff (utf8 "example.com/m")
      (utf8 ("diff --git a/pkg/x_test.go b/pkg/x_test.go\n@@ -1 +1,2 @@\n" ++
        "diff --git a/README.md b/README.md\n@@ -4 +4 @@\n" ++
        "diff --git a/pkg/x.go b/pkg/x.go\n@@ -10,2 +12,3 @@\n"))
      = some [(xgo, [range12])] := by decide
  obtain ⟨d, hd, _, h2, _⟩ := C6_keys_come_from_eligible_sections (utf8 "example.com/m")
    (utf8 ("diff --git a/pkg/x_test.go b/pkg/x_test.go\n@@ -1 +1,2 @@\n" ++
      "diff --git a/README.md b/README.md\n@@ -4 +4 @@\n" ++
      "diff --git a/pkg/x.go b/pkg/x.go\n@@ -10,2 +12,3 @@\n"))
  rw [hev] at hd
  simp only [Option.some.injEq] at hd
  subst hd
  exact ⟨hev, h2 xgo (by simp [mapKeys])⟩

/-! ## Numerals and the pattern of a hunk header -/

theorem decimal_foldl_ge (cs : GoString) (n : Nat) :
    n ≤ cs.foldl (fun n c => n * 10 + (c.toNat - 48)) n := by
  induction cs generalizing n with
  | nil => exact Nat.le_refl n
  | cons c cs ih =>
    simp only [List.foldl_cons]
    exact Nat.le_trans (by omega) (ih _)

theorem parseUint_eq (cs : GoString) (n : Nat) (hd : ∀ c ∈ cs, isDigit c = true)
    (hlt : cs.foldl (fun n c => n * 10 + (c.toNat - 48)) n < 2 ^ 63) :
    parseUint cs n = some (cs.foldl (fun n c => n * 10 + (c.toNat - 48)) n) := by
  induction cs generalizing n with
  | nil => rfl
  | cons c cs ih =>
    simp only [List.foldl_cons] at hlt ⊢
    have hge := decimal_foldl_ge cs (n * 10 + (c.toNat - 48))
    have hc : isDigit c = true := hd c (by simp)
    have h63 : (2 : Nat) ^ 63 = 9223372036854775808 := by norm_num
    have h64 : (2 : Nat) ^ 64 - 1 = 18446744073709551615 := by norm_num
    rw [h63] at hlt
    unfold parseUint
    rw [if_pos hc, h64]
    have e1 : ¬ (n ≥ 18446744073709551615 / 10 + 1) := by omega
    have e2 : ¬ (n * 10 + (c.toNat - 48) > 18446744073709551615) := by omega
    rw [if_neg e1, if_neg e2]
    exact ih _ (fun c' hc' => hd c' (by simp [hc'])) (by rw [h63]; exact hlt)

theorem isDigit_ne (c : UInt8) (h : isDigit c = true) : c ≠ 43 ∧ c ≠ 45 ∧ c ≠ 44 ∧ c ≠ 32 := by
  refine ⟨?_, ?_, ?_, ?_⟩ <;> (intro hc; subst hc; revert h; decide)

/-- On a numeral whose value is below `2^63`, `strconv.Atoi` returns the value. -/
theorem Atoi_numeral (s : GoString) (hs : IsNumeral s) (hlt : decimal s < 2 ^ 63) :
    Atoi s = (decimal s : Int) := by
  obtain ⟨hne, hd⟩ := hs
  cases s with
  | nil => exact absurd rfl hne
  | cons c cs =>
    have hc := isDigit_ne c (hd c (by simp))
    have hpu := parseUint_eq (c :: cs) 0 hd hlt
    unfold Atoi
    simp only [List.head?_cons, Option.some.injEq, hc.1, hc.2.1, or_self, if_false,
      decide_False, Bool.false_eq_true]
    rw [hpu]
    simp only [reduceCtorEq, if_false]
    unfold decimal at hlt ⊢
    rw [if_neg (by omega)]

theorem Atoi_nil : Atoi [] = 0 := by decide

theorem matchLit_append (lit X : GoString) : matchLit lit (lit ++ X) = some X := by
  unfold matchLit
  rw [if_pos (List.isPrefixOf_iff_prefix.2 (List.prefix_append lit X))]
  simp

theorem matchLit_some (lit s r : GoString) (h : matchLit lit s = some r) : s = lit ++ r := by
  unfold matchLit at h
  by_cases hp : lit.isPrefixOf s = true
  · rw [if_pos hp] at h
    obtain ⟨t, ht⟩ := List.isPrefixOf_iff_prefix.1 hp
    simp only [Option.some.injEq] at h
    rw [← ht] at h ⊢
    simp at h
    rw [h]
  · rw [if_neg hp] at h
    exact absurd h (by simp)

theorem span_digits (A W : GoString) (c : UInt8) (hA : ∀ a ∈ A, isDigit a = true)
    (hc : isDigit c = false) :
    (A ++ c :: W).takeWhile isDigit = A ∧ (A ++ c :: W).dropWhile isDigit = c :: W := by
  induction A with
  | nil => simp [List.takeWhile, List.dropWhile, hc]
  | cons a as ih =>
    have ha : isDigit a = true := hA a (by simp)
    have := ih (fun x hx => hA x (by simp [hx]))
    simp [List.takeWhile, List.dropWhile, ha, this]

theorem matchDigits_append (A W : GoString) (c : UInt8) (hA : IsNumeral A)
    (hc : isDigit c = false) : matchDigits (A ++ c :: W) = some (A, c :: W) := by
  obtain ⟨ht, hdr⟩ := span_digits A W c hA.2 hc
  unfold matchDigits
  rw [ht, hdr, if_neg hA.1]

theorem takeWhile_all (s : GoString) : ∀ c ∈ s.takeWhile isDigit, isDigit c = true := by
  induction s with
  | nil => simp
  | cons a as ih =>
    by_cases ha : isDigit a = true
    · simp only [List.takeWhile, ha, List.mem_cons]
      rintro c (rfl | hc)
      · exact ha
      · exact ih c hc
    · simp [List.takeWhile, ha]

theorem matchDigits_some (s ds r : GoString) (h : matchDigits s = some (ds, r)) :
    s = ds ++ r ∧ IsNumeral ds := by
  unfold matchDigits at h
  by_cases he : s.takeWhile isDigit = []
  · rw [if_pos he] at h; exact absurd h (by simp)
  · rw [if_neg he] at h
    simp only [Option.some.injEq, Prod.mk.injEq] at h
    obtain ⟨h1, h2⟩ := h
    refine ⟨?_, ?_, ?_⟩
    · rw [← h1, ← h2]; exact (List.takeWhile_append_dropWhile isDigit s).symm
    · rw [← h1]; exact he
    · rw [← h1]; exact takeWhile_all s

theorem matchCount_append (B : Option GoString) (W : GoString) (hB : IsOptNumeral B) :
    matchCount (optComma B ++ 32 :: W) = (B, 32 :: W) := by
  cases B with
  | none => simp [optComma, matchCount]
  | some b =>
    have hb : IsNumeral b := hB b rfl
    simp only [optComma, List.cons_append, matchCount,
      matchDigits_append b W 32 hb (by decide)]

theorem matchCount_some (s : GoString) :
    s = optComma (matchCount s).1 ++ (matchCount s).2 ∧ IsOptNumeral (matchCount s).1 := by
  unfold matchCount
  split
  · rename_i t
    cases hm : matchDigits t with
    | none => simp [optComma, IsOptNumeral]
    | some p =>
      obtain ⟨ds, r⟩ := p
      obtain ⟨h1, h2⟩ := matchDigits_some t ds r hm
      simp only [optComma, List.cons_append, h1, true_and]
      intro b hb
      simp only [Option.mem_def, Option.some.injEq] at hb
      rw [← hb]; exact h2
  · simp [optComma, IsOptNumeral]

theorem utf8_lits : utf8 "@@ -" = [64, 64, 32, 45] ∧ utf8 " +" = [32, 43] ∧
    utf8 " @@" = [32, 64, 64] ∧ utf8 "@@" = [64, 64] := by decide

/-- The submatches of a line of the form `@@ -A[,B] +C[,D] @@...`: the second is `C`, the
third is `D`, empty when the count is absent. -/
theorem FindStringSubmatch_hunkLine (A : GoString) (B : Option GoString) (C : GoString)
    (D : Option GoString) (rest : GoString) (hA : IsNumeral A) (hB : IsOptNumeral B)
    (hC : IsNumeral C) (hD : IsOptNumeral D) :
    FindStringSubmatch (hunkLine A B C D rest)
      = [(hunkLine A B C D rest).take ((hunkLine A B C D rest).length - rest.length), C,
          D.getD []] := by
  have hY : ∃ c W, isDigit c = false ∧
      optComma B ++ (utf8 " +" ++ (C ++ (optComma D ++ (utf8 " @@" ++ rest)))) = c :: W := by
    cases B with
    | none =>
      exact ⟨32, 43 :: (C ++ (optComma D ++ (utf8 " @@" ++ rest))), by decide,
        by simp [optComma, utf8_lits.2.1]⟩
    | some b =>
      exact ⟨44, b ++ (utf8 " +" ++ (C ++ (optComma D ++ (utf8 " @@" ++ rest)))), by decide,
        rfl⟩
  obtain ⟨c, W, hc, hYeq⟩ := hY
  have hZ : ∃ c W, isDigit c = false ∧ optComma D ++ (utf8 " @@" ++ rest) = c :: W := by
    cases D with
    | none => exact ⟨32, 64 :: 64 :: rest, by decide, by simp [optComma, utf8_lits.2.2.1]⟩
    | some b => exact ⟨44, b ++ (utf8 " @@" ++ rest), by decide, rfl⟩
  obtain ⟨c', W', hc', hZeq⟩ := hZ
  have h1 : matchCount (optComma B ++ (utf8 " +" ++ (C ++ (optComma D ++ (utf8 " @@" ++ rest)))))
      = (B, utf8 " +" ++ (C ++ (optComma D ++ (utf8 " @@" ++ rest)))) := by
    rw [utf8_lits.2.1]
    exact matchCount_append B _ hB
  have h2 : matchCount (optComma D ++ (utf8 " @@" ++ rest)) = (D, utf8 " @@" ++ rest) := by
    rw [utf8_lits.2.2.1]
    exact matchCount_append D _ hD
  unfold FindStringSubmatch
  simp only [hunkLine]
  rw [matchLit_append]
  simp only
  rw [hYeq, matchDigits_append A W c hA hc]
  simp only
  rw [← hYeq, h1]
  simp only
  rw [matchLit_append]
  simp only
  rw [hZeq, matchDigits_append C W' c' hC hc']
  simp only
  rw [← hZeq, h2]
  simp only
  rw [matchLit_append]

/-- The result of `FindStringSubmatch` is empty or has three elements, and then the
line has the form `@@ -A[,B] +C[,D] @@...`. -/
theorem FindStringSubmatch_cases (line : GoString) :
    FindStringSubmatch line = [] ∨
      ∃ whole A B C D rest, IsNumeral A ∧ IsOptNumeral B ∧ IsNumeral C ∧ IsOptNumeral D ∧
        line = hunkLine A B C D rest ∧ FindStringSubmatch line = [whole, C, D.getD []] := by
  unfold FindStringSubmatch
  cases h1 : matchLit (utf8 "@@ -") line with
  | none => exact Or.inl rfl
  | some s1 =>
    simp only
    cases h2 : matchDigits s1 with
    | none => exact Or.inl rfl
    | some p2 =>
      obtain ⟨A, s2⟩ := p2
      simp only
      cases h4 : matchLit (utf8 " +") (matchCount s2).2 with
      | none => exact Or.inl rfl
      | some s4 =>
        simp only
        cases h5 : matchDigits s4 with
        | none => exact Or.inl rfl
        | some p5 =>
          obtain ⟨C, s5⟩ := p5
          simp only
          cases h7 : matchLit (utf8 " @@") (matchCount s5).2 with
          | none => exact Or.inl rfl
          | some s7 =>
            right
            obtain ⟨e2, hA⟩ := matchDigits_some s1 A s2 h2
            obtain ⟨e3, hB⟩ := matchCount_some s2
            obtain ⟨e5, hC⟩ := matchDigits_some s4 C s5 h5
            obtain ⟨e6, hD⟩ := matchCount_some s5
            refine ⟨_, A, (matchCount s2).1, C, (matchCount s5).1, s7, hA, hB, hC, hD, ?_, rfl⟩
            unfold hunkLine
            rw [← matchLit_some _ _ _ h7, ← e6, ← e5, ← matchLit_some _ _ _ h4, ← e3, ← e2]
            exact matchLit_some _ _ _ h1

/-! ## The range of a hunk header -/

theorem hunkOf_hunkLine (A : GoString) (B : Option GoString) (C : GoString)
    (D : Option GoString) (rest : GoString) (hA : IsNumeral A) (hB : IsOptNumeral B)
    (hC : IsNumeral C) (hD : IsOptNumeral D) (hfitC : decimal C < 2 ^ 63)
    (hfitD : ∀ d ∈ D, decimal d < 2 ^ 63) :
    hunkOf (hunkLine A B C D rest)
      = some ⟨(decimal C : Int), (((D.map decimal).getD 0 : Nat) : Int)⟩ := by
  unfold hunkOf
  rw [FindStringSubmatch_hunkLine A B C D rest hA hB hC hD]
  simp only [Atoi_numeral C hC hfitC]
  cases D with
  | none => simp [Atoi_nil]
  | some d => simp [Atoi_numeral d (hD d rfl) (hfitD d rfl)]

theorem hunkOf_some (line : GoString) (r : lineInfo) (h : hunkOf line = some r) :
    ∃ A B C D rest, IsNumeral A ∧ IsOptNumeral B ∧ IsNumeral C ∧ IsOptNumeral D ∧
      line = hunkLine A B C D rest := by
  rcases FindStringSubmatch_cases line with h0 | ⟨_, A, B, C, D, rest, hA, hB, hC, hD, hl, _⟩
  · unfold hunkOf at h
    rw [h0] at h
    exact absurd h (by simp)
  · exact ⟨A, B, C, D, rest, hA, hB, hC, hD, hl⟩

theorem hunkOf_some_at (line : GoString) (r : lineInfo) (h : hunkOf line = some r) :
    HasPrefix line (utf8 "@@") = true := by
  obtain ⟨A, B, C, D, rest, _, _, _, _, hl⟩ := hunkOf_some line r h
  rw [hl]
  unfold HasPrefix hunkLine
  rw [List.isPrefixOf_iff_prefix, utf8_lits.1, utf8_lits.2.2.2]
  exact ⟨32 :: 45 :: (A ++ (optComma B ++ (utf8 " +" ++ (C ++ (optComma D ++
    (utf8 " @@" ++ rest)))))), rfl⟩

/-! ## The sections of a diff -/

theorem headerToken_eq_some (line tok : GoString) :
    headerToken line = some tok ↔ EligibleHeader line tok := by
  unfold headerToken EligibleHeader
  by_cases hh : isHeader line = true
  · rw [if_pos hh]
    cases hl : lastToken line with
    | none => simp [Option.filter]
    | some t =>
      by_cases he : eligible t = true
      · simp only [Option.filter, he, if_true, Option.some.injEq, hh, true_and]
        constructor
        · rintro rfl; exact ⟨rfl, he⟩
        · rintro ⟨h1, _⟩; exact h1
      · simp only [Option.filter, he, Bool.false_eq_true, if_false, hh, Option.some.injEq,
          true_and]
        constructor
        · intro h; exact absurd h (by simp)
        · rintro ⟨h1, h2⟩; rw [h1] at he; exact absurd h2 he
  · simp [hh]

theorem headerKey_eq_some (mod line tok : GoString) (h : EligibleHeader line tok) :
    headerKey mod line = some (qualify mod tok) := by
  unfold headerKey
  rw [(headerToken_eq_some line tok).2 h]
  rfl

/-- The step of a line that is not a `diff --git` line, in an eligible section. -/
theorem parseStep_body (mod : GoString) (st : ParseState) (line : GoString)
    (hl : isHeader line = false) (ht : st.trueFile = true) :
    parseStep mod st line =
      some (match hunkOf line with
        | some r => appendRange st r
        | none => st) := by
  unfold isHeader at hl
  unfold parseStep
  simp only [hl, Bool.false_eq_true, if_false]
  by_cases h2 : HasPrefix line (utf8 "@@") = true
  · rw [if_pos h2]
    simp [hunkStep, ht]
  · rw [if_neg h2]
    cases hh : hunkOf line with
    | none => rfl
    | some r => exact absurd (hunkOf_some_at line r hh) h2

/-- The lines of a section after its `diff --git` line append their ranges, in order,
to the sequence of the key `newp`. -/
theorem parseLoop_body (mod : GoString) (body : List GoString) (st : ParseState)
    (old : List lineInfo) (hbody : ∀ l ∈ body, isHeader l = false)
    (ht : st.trueFile = true) (hold : mapGet st.diffs st.newp = some old) :
    ∃ st', parseLoop mod body st = some st' ∧ st'.newp = st.newp ∧ st'.trueFile = true ∧
      mapGet st'.diffs st.newp = some (old ++ body.filterMap hunkOf) := by
  induction body generalizing st old with
  | nil => exact ⟨st, rfl, rfl, ht, by simpa using hold⟩
  | cons l ls ih =>
    have hl := hbody l (by simp)
    have hls : ∀ l' ∈ ls, isHeader l' = false := fun l' hl' => hbody l' (by simp [hl'])
    simp only [parseLoop, parseStep_body mod st l hl ht]
    cases hh : hunkOf l with
    | none =>
      simp only [List.filterMap_cons, hh]
      exact ih st old hls ht hold
    | some r =>
      simp only [List.filterMap_cons, hh]
      have hold' : mapGet (appendRange st r).diffs (appendRange st r).newp
          = some (old ++ [r]) := by
        simp [appendRange, mapGet_mapSet_same, hold]
      obtain ⟨st', h1, h2, h3, h4⟩ := ih (appendRange st r) (old ++ [r]) hls ht hold'
      refine ⟨st', h1, h2, h3, ?_⟩
      rw [show (appendRange st r).newp = st.newp from rfl] at h4
      simpa using h4

/-- A step that does not make the key `k` again, from a state in which `k` is not the
key of the current section, keeps the sequence of `k`. -/
theorem parseStep_other (mod : GoString) (st st' : ParseState) (line k : GoString)
    (hQ : st.trueFile = false ∨ st.newp ≠ k) (hk : headerKey mod line ≠ some k)
    (hstep : parseStep mod st line = some st') :
    (st'.trueFile = false ∨ st'.newp ≠ k) ∧ mapGet st'.diffs k = mapGet st.diffs k := by
  by_cases hh : isHeader line = true
  · rw [parseStep_of_header mod st line hh] at hstep
    obtain ⟨tok, htok⟩ := lastToken_isSome line
    rw [headerStep_eq mod st line tok htok] at hstep
    by_cases he : eligible tok = true
    · rw [if_pos he] at hstep
      have hne : qualify mod tok ≠ k := by
        intro heq
        exact hk (by rw [headerKey_eq_some mod line tok ⟨hh, htok, he⟩, heq])
      cases hget : mapGet st.diffs tok with
      | some v =>
        rw [hget] at hstep
        simp only [Option.some.injEq] at hstep
        subst hstep
        exact ⟨hQ, rfl⟩
      | none =>
        rw [hget] at hstep
        simp only [Option.some.injEq] at hstep
        subst hstep
        exact ⟨Or.inr hne, mapGet_mapSet_other _ _ _ _ (Ne.symm hne)⟩
    · rw [if_neg he] at hstep
      simp only [Option.some.injEq] at hstep
      subst hstep
      exact ⟨Or.inl rfl, rfl⟩
  · have hh' : isHeader line = false := by simpa using hh
    rcases parseStep_of_not_header mod st line hh' with h1 | ⟨_, h1⟩
    · rw [h1] at hstep
      simp only [Option.some.injEq] at hstep
      subst hstep
      exact ⟨hQ, rfl⟩
    · rw [h1] at hstep
      simp only [Option.some.injEq] at hstep
      subst hstep
      rcases hunkStep_cases st line with h2 | ⟨ht, r, _, h2⟩
      · rw [h2]; exact ⟨hQ, rfl⟩
      · rw [h2]
        have hne : st.newp ≠ k := by
          rcases hQ with hf | hn
          · rw [ht] at hf; exact absurd hf (by simp)
          · exact hn
        exact ⟨Or.inr hne, mapGet_mapSet_other _ _ _ _ (Ne.symm hne)⟩

theorem parseLoop_other (mod : GoString) (post : List GoString) (st st' : ParseState)
    (k : GoString) (hQ : st.trueFile = false ∨ st.newp ≠ k)
    (hk : ∀ l ∈ post, headerKey mod l ≠ some k) (hloop : parseLoop mod post st = some st') :
    mapGet st'.diffs k = mapGet st.diffs k := by
  induction post generalizing st with
  | nil =>
    simp only [parseLoop, Option.some.injEq] at hloop
    rw [← hloop]
  | cons l ls ih =>
    obtain ⟨st1, h1⟩ := parseStep_total mod st l
    simp only [parseLoop, h1] at hloop
    obtain ⟨hQ1, hget1⟩ := parseStep_other mod st st1 l k hQ (hk l (by simp)) h1
    rw [ih st1 hQ1 (fun l' hl' => hk l' (by simp [hl'])) hloop, hget1]

/-- When the guard never fires, the token of an eligible `diff --git` line is not a key
of a map made from lines of the same text. -/
theorem guard_none (mod : GoString) (lines seen : List GoString) (st : ParseState)
    (line tok : GoString) (hguard : GuardNeverFires mod lines)
    (hsub : ∀ l ∈ seen, l ∈ lines) (hline : line ∈ lines)
    (hinv : ParseInv mod seen st) (he : EligibleHeader line tok) :
    mapGet st.diffs tok = none := by
  rw [mapGet_eq_none_iff]
  intro hmem
  obtain ⟨l1, hl1, t1, he1, hq⟩ := hinv.keys tok hmem
  rcases hguard l1 (hsub l1 hl1) line hline with h | h
  · rw [headerKey_eq_some mod l1 t1 he1] at h
    exact absurd h (by simp)
  · rw [headerKey_eq_some mod l1 t1 he1, (headerToken_eq_some line tok).2 he, hq] at h
    exact h rfl

/-- The sequence stored under the key of a section: the ranges of the lines of the
section, in order. -/
theorem parseLoop_section (mod : GoString) (pre : List GoString) (h tok : GoString)
    (body post : List GoString) (hh : EligibleHeader h tok)
    (hbody : ∀ l ∈ body, isHeader l = false)
    (hpost : ∀ l ∈ post.head?, isHeader l = true)
    (hone : ∀ l ∈ post, headerKey mod l ≠ some (qualify mod tok))
    (hguard : GuardNeverFires mod (pre ++ h :: (body ++ post))) :
    ∃ st, parseLoop mod (pre ++ h :: (body ++ post)) parseInit = some st ∧
      mapGet st.diffs (qualify mod tok) = some (body.filterMap hunkOf) := by
  obtain ⟨st0, h0⟩ := parseLoop_total mod pre parseInit
  have inv0 := parseLoop_inv mod pre [] parseInit st0 (parseInv_init mod) h0
  simp only [List.nil_append] at inv0
  -- the `diff --git` line of the section
  have hg0 : mapGet st0.diffs tok = none :=
    guard_none mod _ pre st0 h tok hguard (fun l hl => by simp [hl]) (by simp) inv0 hh
  have hstep : parseStep mod st0 h
      = some ⟨mapSet st0.diffs (qualify mod tok) [], qualify mod tok, true⟩ := by
    rw [parseStep_of_header mod st0 h hh.1, headerStep_eq mod st0 h tok hh.2.1, if_pos hh.2.2, hg0]
  have inv1 := parseStep_inv mod pre st0 _ h inv0 hstep
  -- the lines of the section
  obtain ⟨st2, h2, hnewp, htrue, hget2⟩ := parseLoop_body mod body
    ⟨mapSet st0.diffs (qualify mod tok) [], qualify mod tok, true⟩ [] hbody rfl
    (mapGet_mapSet_same _ _ _)
  simp only [List.nil_append] at hget2 hnewp
  have inv2 := parseLoop_inv mod body _ _ st2 inv1 h2
  -- the lines after the section
  obtain ⟨st3, h3⟩ := parseLoop_total mod post st2
  refine ⟨st3, ?_, ?_⟩
  · rw [parseLoop_append, h0]
    simp only [Option.bind, parseLoop, hstep]
    rw [parseLoop_append, h2]
    exact h3
  · cases post with
    | nil =>
      simp only [parseLoop, Option.some.injEq] at h3
      rw [← h3]; exact hget2
    | cons h' post' =>
      have hh' : isHeader h' = true := hpost h' (by simp)
      obtain ⟨st2', hs2⟩ := parseStep_total mod st2 h'
      simp only [parseLoop, hs2] at h3
      have hfirst : (st2'.trueFile = false ∨ st2'.newp ≠ qualify mod tok) ∧
          mapGet st2'.diffs (qualify mod tok) = mapGet st2.diffs (qualify mod tok) := by
        have hs2' := hs2
        rw [parseStep_of_header mod st2 h' hh'] at hs2'
        obtain ⟨tok', htok'⟩ := lastToken_isSome h'
        rw [headerStep_eq mod st2 h' tok' htok'] at hs2'
        by_cases he : eligible tok' = true
        · have hne : qualify mod tok' ≠ qualify mod tok := by
            intro heq
            exact hone h' (by simp) (by rw [headerKey_eq_some mod h' tok' ⟨hh', htok', he⟩, heq])
          have hg2 : mapGet st2.diffs tok' = none :=
            guard_none mod _ (pre ++ [h] ++ body) st2 h' tok' hguard
              (fun l hl => by
                simp only [List.mem_append, List.mem_singleton, List.mem_cons] at hl ⊢
                tauto)
              (by simp) inv2 ⟨hh', htok', he⟩
          rw [if_pos he, hg2] at hs2'
          simp only [Option.some.injEq] at hs2'
          subst hs2'
          exact ⟨Or.inr hne, mapGet_mapSet_other _ _ _ _ (Ne.symm hne)⟩
        · rw [if_neg he] at hs2'
          simp only [Option.some.injEq] at hs2'
          subst hs2'
          exact ⟨Or.inl rfl, rfl⟩
      rw [parseLoop_other mod post' st2' st3 (qualify mod tok) hfirst.1
        (fun l hl => hone l (by simp [hl])) h3, hfirst.2]
      exact hget2

/-! ## Claims about the ranges and the keys -/

/-- The ranges of a section when the test of line 68 works as intended: for every diff
text and every section among the lines that the scanner delivers (a `diff --git` line `h`
with an eligible last token `tok`, followed by the lines `body` up to the next
`diff --git` line or the end), when no later `diff --git` line makes the key of `tok`
again and the existence test of line 68 never finds a key in this text
(`GuardNeverFires`), the sequence stored under the key of `tok` is, in order, the ranges
of the lines of `body`.  The range of a line `@@ -A[,B] +C[,D] @@...` whose numbers `C`
and `D` are below `2^63` has start `C` and length `D`, length 0 when `,D` is absent,
whatever `A` and `B`; and a line that is not of this form has no range. -/
theorem section_ranges_are_new_side_numbers (mod diff : GoString) (pre : List GoString)
    (h tok : GoString) (body post : List GoString)
    (hscan : ScanLines diff = pre ++ h :: (body ++ post))
    (hh : headerToken h = some tok)
    (hbody : ∀ l ∈ body, isHeader l = false)
    (hpost : ∀ l ∈ post.head?, isHeader l = true)
    (hone : ∀ l ∈ post, headerKey mod l ≠ some (qualify mod tok))
    (hguard : GuardNeverFires mod (ScanLines diff)) :
    (∃ d, parseDiff mod diff = some d ∧
      mapGet d (qualify mod tok) = some (body.filterMap hunkOf)) ∧
    (∀ A B C D rest, IsNumeral A → IsOptNumeral B → IsNumeral C → IsOptNumeral D →
      decimal C < 2 ^ 63 → (∀ d ∈ D, decimal d < 2 ^ 63) →
      hunkOf (hunkLine A B C D rest)
        = some ⟨(decimal C : Int), (((D.map decimal).getD 0 : Nat) : Int)⟩) ∧
    (∀ line r, hunkOf line = some r →
      ∃ A B C D rest, IsNumeral A ∧ IsOptNumeral B ∧ IsNumeral C ∧ IsOptNumeral D ∧
        line = hunkLine A B C D rest) := by
  refine ⟨?_, hunkOf_hunkLine, hunkOf_some⟩
  rw [hscan] at hguard
  obtain ⟨st, hst, hget⟩ := parseLoop_section mod pre h tok body post
    ((headerToken_eq_some h tok).1 hh) hbody hpost hone hguard
  exact ⟨st.diffs, by simp [parseDiff, hscan, hst], hget⟩

/-- An instance of `section_ranges_are_new_side_numbers`: the section of `pkg/x.go` in a
text of two sections; its two hunk headers give the ranges `{12, 3}` and `{23, 0}`, the
line `@@ broken` gives none. -/
theorem section_ranges_are_new_side_numbers_example :
    (∃ d, parseDiff (utf8 "example.com/m") diffTwoSections = some d ∧
      mapGet d xgo = some [⟨12, 3⟩, ⟨23, 0⟩]) ∧
    hunkOf (utf8 "@@ -10,2 +12,3 @@") = some ⟨12, 3⟩ ∧
    hunkOf (utf8 "@@ -20 +23 @@ func f()") = some ⟨23, 0⟩ ∧
    hunkOf (utf8 "@@ broken") = none := by
  have key := section_ranges_are_new_side_numbers (utf8 "example.com/m") diffTwoSections []
    (utf8 "diff --git a/pkg/x.go b/pkg/x.go") (utf8 "b/pkg/x.go")
    [utf8 "@@ -10,2 +12,3 @@", utf8 "+new", utf8 "@@ -20 +23 @@ func f()", utf8 "@@ broken"]
    [utf8 "diff --git a/pkg/y.go b/pkg/y.go", utf8 "@@ -1 +1,0 @@"]
    (by decide) (by decide) (by decide)
    (by intro l hl; simp only [List.head?_cons, Option.mem_def, Option.some.injEq] at hl
        subst hl; decide)
    (by decide) (by decide)
  refine ⟨?_, ?_, by decide, by decide⟩
  · obtain ⟨d, hd, hm⟩ := key.1
    refine ⟨d, hd, ?_⟩
    rw [show qualify (utf8 "example.com/m") (utf8 "b/pkg/x.go") = xgo from by decide] at hm
    rw [hm]
    decide
  · have := key.2.1 (utf8 "10") (some (utf8 "2")) (utf8 "12") (some (utf8 "3")) []
      ⟨by decide, by decide⟩ (by intro b hb; cases hb; exact ⟨by decide, by decide⟩)
      ⟨by decide, by decide⟩ (by intro b hb; cases hb; exact ⟨by decide, by decide⟩)
      (by decide) (by intro b hb; cases hb; decide)
    rw [show hunkLine (utf8 "10") (some (utf8 "2")) (utf8 "12") (some (utf8 "3")) []
      = utf8 "@@ -10,2 +12,3 @@" from by decide] at this
    rw [this]
    decide

/-- C4 (the code does not do this): with the module root `b/m`, the files `x.go` and
`m/x.go` have one section each and make different keys, and all numbers are small.  The
test of line 68 looks the raw token up in a map whose keys are qualified paths (lines
71, 86 and 93): the token `b/m/x.go` of the second `diff --git` line is the key of the
first file, so the test finds it, no key is made for `m/x.go`, and the range `{7, 2}` of
the second section is stored under the key of `x.go`, after the range `{1, 0}` of its
own section: the sequence under that key is not the ranges of its section. -/
theorem C4_range_of_other_section_is_stored_under_key :
    ScanLines diffNested
        = [] ++ utf8 "diff --git a/x.go b/x.go" ::
            ([utf8 "@@ -1 +1 @@"] ++ [utf8 "diff --git a/m/x.go b/m/x.go", utf8 "@@ -5 +7,2 @@"]) ∧
      headerToken (utf8 "diff --git a/x.go b/x.go") = some (utf8 "b/x.go") ∧
      ((ScanLines diffNested).filterMap headerToken).Nodup ∧
      ((ScanLines diffNested).filterMap (headerKey (utf8 "b/m"))).Nodup ∧
      [utf8 "@@ -1 +1 @@"].filterMap hunkOf = [⟨1, 0⟩] ∧
      parseDiff (utf8 "b/m") diffNested = some [(utf8 "b/m/x.go", [⟨1, 0⟩, ⟨7, 2⟩])] ∧
      ¬ ∃ d, parseDiff (utf8 "b/m") diffNested = some d ∧
        mapGet d (qualify (utf8 "b/m") (utf8 "b/x.go"))
          = some ([utf8 "@@ -1 +1 @@"].filterMap hunkOf) := by
  have hev : parseDiff (utf8 "b/m") diffNested
      = some [(utf8 "b/m/x.go", [⟨1, 0⟩, ⟨7, 2⟩])] := by decide
  refine ⟨by decide, by decide, by decide, by decide, by decide, hev, ?_⟩
  rintro ⟨d, hd, hm⟩
  rw [hev] at hd
  simp only [Option.some.injEq] at hd
  subst hd
  revert hm
  decide

theorem Split_no_sep (b : GoString) (sep : UInt8) (hb : sep ∉ b) : Split b sep = [b] := by
  induction b with
  | nil => rfl
  | cons c cs ih =>
    have hc : c ≠ sep := fun h => hb (by simp [h])
    have hcs : sep ∉ cs := fun h => hb (by simp [h])
    rw [Split, if_neg hc, ih hcs]

/-- The last token of a line that ends with a space and a string without a space. -/
theorem lastToken_append (a b : GoString) (hb : (32 : UInt8) ∉ b) :
    lastToken (a ++ 32 :: b) = some b := by
  unfold lastToken
  rw [Split_append_sep, Split_no_sep b 32 hb, List.getLast?_concat]

/-- The key that a `diff --git` line makes: for every `diff --git` line with an eligible
last token `tok` and every module root `mod`, when `tok` is not a key of the map the line
makes the key `Join(mod, tok[2:])` with `\` replaced by `/`, binds it to the empty
sequence and makes it the current key.  When the token starts with `b/` the two bytes
removed are that `b/`: a line `diff --git a/<p> b/<p>`, `<p>` without a space, has the
last token `b/<p>`, and the key is made of `<p>`. -/
theorem header_makes_qualified_key (mod : GoString) (st : ParseState) (line tok : GoString)
    (hh : isHeader line = true) (htok : lastToken line = some tok)
    (he : eligible tok = true) (hget : mapGet st.diffs tok = none) :
    parseStep mod st line
        = some ⟨mapSet st.diffs (ReplaceAll (Join mod (tok.drop 2)) 92 47) [],
            ReplaceAll (Join mod (tok.drop 2)) 92 47, true⟩ ∧
      (∀ p, tok = utf8 "b/" ++ p → tok.drop 2 = p) ∧
      (∀ p, (32 : UInt8) ∉ p →
        lastToken (utf8 "diff --git a/" ++ p ++ utf8 " b/" ++ p) = some (utf8 "b/" ++ p) ∧
        isHeader (utf8 "diff --git a/" ++ p ++ utf8 " b/" ++ p) = true) := by
  refine ⟨?_, ?_, fun p hp => ⟨?_, ?_⟩⟩
  · rw [parseStep_of_header mod st line hh, headerStep_eq mod st line tok htok, if_pos he, hget]
    rfl
  · rintro p rfl
    rw [show utf8 "b/" = [98, 47] from by decide]
    rfl
  · have h1 : utf8 "diff --git a/" ++ p ++ utf8 " b/" ++ p
        = (utf8 "diff --git a/" ++ p) ++ 32 :: (utf8 "b/" ++ p) := by
      rw [show utf8 " b/" = 32 :: utf8 "b/" from by decide]
      simp
    rw [h1]
    apply lastToken_append
    rw [show utf8 "b/" = [98, 47] from by decide]
    simp only [List.cons_append, List.nil_append, List.mem_cons, not_or]
    exact ⟨by decide, by decide, hp⟩
  · unfold isHeader HasPrefix
    rw [List.isPrefixOf_iff_prefix]
    refine ⟨utf8 " a/" ++ p ++ utf8 " b/" ++ p, ?_⟩
    rw [show utf8 "diff --git a/" = utf8 "diff --git" ++ utf8 " a/" from by decide]
    simp

/-- An instance of `header_makes_qualified_key`: the lines
`diff --git a/pkg/x.go b/pkg/x.go` and `@@ -10,2 +12,3 @@` with the module root
`example.com/m` give the map with the single key `example.com/m/pkg/x.go`, bound to the
sequence of the one range `{12, 3}`. -/
theorem header_makes_qualified_key_example :
    parseStep (utf8 "example.com/m") parseInit (utf8 "diff --git a/pkg/x.go b/pkg/x.go")
        = some ⟨[(utf8 "example.com/m/pkg/x.go", [])], utf8 "example.com/m/pkg/x.go", true⟩ ∧
      parseDiff (utf8 "example.com/m")
          (utf8 "diff --git a/pkg/x.go b/pkg/x.go\n@@ -10,2 +12,3 @@\n")
        = some [(utf8 "example.com/m/pkg/x.go", [⟨12, 3⟩])] := by
  have key := (header_makes_qualified_key (utf8 "example.com/m") parseInit
    (utf8 "diff --git a/pkg/x.go b/pkg/x.go") (utf8 "b/pkg/x.go")
    (by decide) (by decide) (by decide) (by decide)).1
  refine ⟨?_, by decide⟩
  rw [key]
  decide

/-! ## Claims about the safety of the slice and the unreachable branch -/

/-- C17: the slice expression `_path[2:]` of line 69 is never out of range: a token that
passes the test of line 63 has at least three bytes (the token `.go` has exactly three),
so no step, and no run of `parseDiff` on any diff text, panics. -/
theorem C17_path_slice_never_out_of_range (mod : GoString) :
    (∀ tok, eligible tok = true → 3 ≤ tok.length ∧ sliceFrom tok 2 = some (tok.drop 2)) ∧
      (eligible (utf8 ".go") = true ∧ (utf8 ".go").length = 3) ∧
      (∀ st line, ∃ st', headerStep mod st line = some st') ∧
      (∀ st line, ∃ st', parseStep mod st line = some st') ∧
      (∀ diff, ∃ d, parseDiff mod diff = some d) := by
  refine ⟨fun tok he => ?_, by decide, fun st line => ?_, parseStep_total mod, fun diff => ?_⟩
  · have hlen := Ext_go_length tok ((eligible_iff tok).1 he).1
    exact ⟨hlen, by unfold sliceFrom; rw [if_pos (by omega)]⟩
  · obtain ⟨tok, htok⟩ := lastToken_isSome line
    rw [headerStep_eq mod st line tok htok]
    by_cases he : eligible tok = true
    · rw [if_pos he]
      cases mapGet st.diffs tok with
      | some v => exact ⟨_, rfl⟩
      | none => exact ⟨_, rfl⟩
    · rw [if_neg he]; exact ⟨_, rfl⟩
  · obtain ⟨st, hst⟩ := parseLoop_total mod (ScanLines diff) parseInit
    exact ⟨st.diffs, by simp [parseDiff, hst]⟩

theorem hunkOfNoTwo_eq (line : GoString) : hunkOfNoTwo line = hunkOf line := by
  unfold hunkOfNoTwo hunkOf
  rcases FindStringSubmatch_cases line with h | ⟨w, A, B, C, D, rest, _, _, _, _, _, h⟩
  · rw [h]
  · rw [h]

theorem parseStepNoTwo_eq (mod : GoString) (st : ParseState) (line : GoString) :
    parseStepNoTwo mod st line = parseStep mod st line := by
  unfold parseStepNoTwo parseStep hunkStepNoTwo hunkStep
  rw [hunkOfNoTwo_eq]

theorem parseLoopNoTwo_eq (mod : GoString) (lines : List GoString) (st : ParseState) :
    parseLoopNoTwo mod lines st = parseLoop mod lines st := by
  induction lines generalizing st with
  | nil => rfl
  | cons l ls ih =>
    simp only [parseLoopNoTwo, parseLoop, parseStepNoTwo_eq]
    cases parseStep mod st l with
    | none => rfl
    | some st' => exact ih st'

/-- C18: the result of `FindStringSubmatch` for the pattern of line 23 is empty or has
three elements, never two, so the branch `len(sub) == 2` is never taken; a header without
a new-side count has three submatches, the last one empty, and the branch
`len(sub) == 3` gives it the length 0; and `parseDiff` with the branch `len(sub) == 2`
deleted returns the same result as `parseDiff` on every diff text. -/
theorem C18_two_submatch_branch_is_unreachable (mod : GoString) :
    (∀ line, FindStringSubmatch line = [] ∨ (FindStringSubmatch line).length = 3) ∧
      (∀ line, (FindStringSubmatch line).length ≠ 2) ∧
      (∀ A B C rest, IsNumeral A → IsOptNumeral B → IsNumeral C → decimal C < 2 ^ 63 →
        (∃ whole, FindStringSubmatch (hunkLine A B C none rest) = [whole, C, []]) ∧
          hunkOf (hunkLine A B C none rest) = some ⟨(decimal C : Int), 0⟩) ∧
      (∀ line, hunkOfNoTwo line = hunkOf line) ∧
      (∀ diff, parseDiffNoTwo mod diff = parseDiff mod diff) := by
  have h3 : ∀ line, FindStringSubmatch line = [] ∨ (FindStringSubmatch line).length = 3 := by
    intro line
    rcases FindStringSubmatch_cases line with h | ⟨w, A, B, C, D, rest, _, _, _, _, _, h⟩
    · exact Or.inl h
    · exact Or.inr (by rw [h]; rfl)
  refine ⟨h3, fun line => ?_, fun A B C rest hA hB hC hfit => ⟨?_, ?_⟩, hunkOfNoTwo_eq,
    fun diff => ?_⟩
  · rcases h3 line with h | h
    · rw [h]; simp
    · rw [h]; simp
  · exact ⟨_, FindStringSubmatch_hunkLine A B C none rest hA hB hC (fun b hb => by cases hb)⟩
  · have := hunkOf_hunkLine A B C none rest hA hB hC (fun b hb => by cases hb) hfit
      (fun d hd => by cases hd)
    simpa using this
  · unfold parseDiffNoTwo parseDiff
    rw [parseLoopNoTwo_eq]

/-- Witness of C18: the header `@@ -20 +23 @@` has three submatches, the last one empty,
and its range is `{23, 0}`, with or without the branch `len(sub) == 2`. -/
theorem C18_two_submatch_branch_is_unreachable_witness :
    FindStringSubmatch (utf8 "@@ -20 +23 @@") = [utf8 "@@ -20 +23 @@", utf8 "23", []] ∧
      hunkOf (utf8 "@@ -20 +23 @@") = some ⟨23, 0⟩ ∧
      hunkOfNoTwo (utf8 "@@ -20 +23 @@") = some ⟨23, 0⟩ ∧
      parseDiffNoTwo (utf8 "example.com/m") diffTwoSections
        = parseDiff (utf8 "example.com/m") diffTwoSections := by
  have key := C18_two_submatch_branch_is_unreachable (utf8 "example.com/m")
  refine ⟨by decide, by decide, ?_, key.2.2.2.2 diffTwoSections⟩
  rw [key.2.2.2.1]
  decide

/-! ## The values of the ranges -/

theorem mem_mapSet {β : Type} (m : List (GoString × β)) (k : GoString) (v : β)
    (entry : GoString × β) (h : entry ∈ mapSet m k v) : entry ∈ m ∨ entry = (k, v) := by
  induction m with
  | nil => simpa [mapSet] using h
  | cons hd t ih =>
    obtain ⟨k₀, v₀⟩ := hd
    by_cases hk : k₀ = k
    · simp only [mapSet, if_pos hk, List.mem_cons] at h
      rcases h with h | h
      · exact Or.inr h
      · exact Or.inl (by simp [h])
    · simp only [mapSet, if_neg hk, List.mem_cons] at h
      rcases h with h | h
      · exact Or.inl (by simp [h])
      · rcases ih h with h' | h'
        · exact Or.inl (by simp [h'])
        · exact Or.inr h'

theorem mapGet_mem {β : Type} (m : List (GoString × β)) (k : GoString) (v : β)
    (h : mapGet m k = some v) : (k, v) ∈ m := by
  induction m with
  | nil => simp [mapGet] at h
  | cons hd t ih =>
    obtain ⟨k₀, v₀⟩ := hd
    by_cases hk : k₀ = k
    · simp only [mapGet, if_pos hk, Option.some.injEq] at h
      simp [hk, h]
    · simp only [mapGet, if_neg hk] at h
      simp [ih h]

/-- The value of `strconv.Atoi` on a string of digits lies between 0 and `2^63 - 1`. -/
theorem Atoi_digits_bounds (s : GoString) (hd : ∀ c ∈ s, isDigit c = true) :
    0 ≤ Atoi s ∧ Atoi s < 2 ^ 63 := by
  cases s with
  | nil => rw [Atoi_nil]; exact ⟨le_refl _, by norm_num⟩
  | cons c cs =>
    have hc := isDigit_ne c (hd c (by simp))
    unfold Atoi
    simp only [List.head?_cons, Option.some.injEq, hc.1, hc.2.1, or_self, if_false,
      decide_False, Bool.false_eq_true, reduceCtorEq]
    cases parseUint (c :: cs) 0 with
    | none => exact ⟨le_refl _, by norm_num⟩
    | some un =>
      simp only
      by_cases hun : un ≥ 2 ^ 63
      · rw [if_pos hun]; exact ⟨by norm_num, by norm_num⟩
      · rw [if_neg hun]
        exact ⟨Int.natCast_nonneg un, by exact_mod_cast Nat.lt_of_not_ge hun⟩

/-- The range of a line of the form `@@ -A[,B] +C[,D] @@...`, whatever the size of the
numbers. -/
theorem hunkOf_hunkLine_raw (A : GoString) (B : Option GoString) (C : GoString)
    (D : Option GoString) (rest : GoString) (hA : IsNumeral A) (hB : IsOptNumeral B)
    (hC : IsNumeral C) (hD : IsOptNumeral D) :
    hunkOf (hunkLine A B C D rest) = some ⟨Atoi C, Atoi (D.getD [])⟩ := by
  unfold hunkOf
  rw [FindStringSubmatch_hunkLine A B C D rest hA hB hC hD]

theorem hunkOf_bounds (line : GoString) (r : lineInfo) (h : hunkOf line = some r) :
    (0 ≤ r.start ∧ r.start < 2 ^ 63) ∧ (0 ≤ r.end_ ∧ r.end_ < 2 ^ 63) := by
  obtain ⟨A, B, C, D, rest, hA, hB, hC, hD, hl⟩ := hunkOf_some line r h
  rw [hl, hunkOf_hunkLine_raw A B C D rest hA hB hC hD] at h
  simp only [Option.some.injEq] at h
  rw [← h]
  refine ⟨Atoi_digits_bounds C hC.2, Atoi_digits_bounds _ ?_⟩
  cases D with
  | none => simp
  | some d => exact (hD d rfl).2

theorem allRanges_mapSet (P : lineInfo → Prop) (diffs : Diff) (k : GoString)
    (v : List lineInfo) (h : AllRanges P diffs) (hv : ∀ r ∈ v, P r) :
    AllRanges P (mapSet diffs k v) := by
  intro entry he r hr
  rcases mem_mapSet diffs k v entry he with h1 | h1
  · exact h entry h1 r hr
  · rw [h1] at hr; exact hv r hr

/-- A property of the ranges of the hunk headers of the lines holds for every range
stored by the loop. -/
theorem parseLoop_allRanges (P : lineInfo → Prop) (mod : GoString) (lines : List GoString)
    (st st' : ParseState) (hP : ∀ l ∈ lines, ∀ r, hunkOf l = some r → P r)
    (h : AllRanges P st.diffs) (hloop : parseLoop mod lines st = some st') :
    AllRanges P st'.diffs := by
  induction lines generalizing st with
  | nil =>
    simp only [parseLoop, Option.some.injEq] at hloop
    rw [← hloop]; exact h
  | cons l ls ih =>
    obtain ⟨st1, h1⟩ := parseStep_total mod st l
    simp only [parseLoop, h1] at hloop
    refine ih st1 (fun l' hl' => hP l' (by simp [hl'])) ?_ hloop
    by_cases hh : isHeader l = true
    · rw [parseStep_of_header mod st l hh] at h1
      obtain ⟨tok, htok⟩ := lastToken_isSome l
      rw [headerStep_eq mod st l tok htok] at h1
      by_cases he : eligible tok = true
      · rw [if_pos he] at h1
        cases hget : mapGet st.diffs tok with
        | some v =>
          rw [hget] at h1
          simp only [Option.some.injEq] at h1
          rw [← h1]; exact h
        | none =>
          rw [hget] at h1
          simp only [Option.some.injEq] at h1
          rw [← h1]
          exact allRanges_mapSet P _ _ _ h (by simp)
      · rw [if_neg he] at h1
        simp only [Option.some.injEq] at h1
        rw [← h1]; exact h
    · have hh' : isHeader l = false := by simpa using hh
      rcases parseStep_of_not_header mod st l hh' with h2 | ⟨_, h2⟩
      · rw [h2] at h1
        simp only [Option.some.injEq] at h1
        rw [← h1]; exact h
      · rw [h2] at h1
        simp only [Option.some.injEq] at h1
        rw [← h1]
        rcases hunkStep_cases st l with h3 | ⟨_, r, hr, h3⟩
        · rw [h3]; exact h
        · rw [h3]
          refine allRanges_mapSet P _ _ _ h (fun r' hr' => ?_)
          simp only [List.mem_append, List.mem_singleton] at hr'
          rcases hr' with hr' | hr'
          · cases hget : mapGet st.diffs st.newp with
            | none => rw [hget] at hr'; simp at hr'
            | some old =>
              rw [hget] at hr'
              exact h _ (mapGet_mem _ _ _ hget) r' hr'
          · rw [hr']; exact hP l (by simp) r hr

/-- C14 (amended): for every diff text, every range stored by `parseDiff` has a start
line and a length between 0 and `2^63 - 1`; the start line is 0 for a hunk header whose
new side is `+0,0`. -/
theorem C14_stored_ranges_are_not_negative (mod diff : GoString) :
    ∃ d, parseDiff mod diff = some d ∧
      ∀ entry ∈ d, ∀ r ∈ entry.2,
        (0 ≤ r.start ∧ r.start < 2 ^ 63) ∧ (0 ≤ r.end_ ∧ r.end_ < 2 ^ 63) := by
  obtain ⟨st, hst⟩ := parseLoop_total mod (ScanLines diff) parseInit
  refine ⟨st.diffs, by simp [parseDiff, hst], ?_⟩
  exact parseLoop_allRanges _ mod (ScanLines diff) parseInit st
    (fun l _ r hr => hunkOf_bounds l r hr) (fun entry he => by simp [parseInit] at he) hst

/-- Counterexample to C14 as stated: the diff of a Go file whose two lines are deleted
has the hunk header `@@ -1,2 +0,0 @@`, and the range stored has the start line 0. -/
theorem C14_counterexample_start_line_zero :
    parseDiff (utf8 "example.com/m") diffEmptied = some [(xgo, [⟨0, 0⟩])] ∧
      ¬ ∀ d, parseDiff (utf8 "example.com/m") diffEmptied = some d →
        ∀ entry ∈ d, ∀ r ∈ entry.2, 1 ≤ r.start ∧ 0 ≤ r.end_ := by
  have hev : parseDiff (utf8 "example.com/m") diffEmptied = some [(xgo, [⟨0, 0⟩])] := by
    decide
  refine ⟨hev, fun h => ?_⟩
  have := h _ hev (xgo, [⟨0, 0⟩]) (by simp) ⟨0, 0⟩ (by simp)
  revert this
  decide

/-! ## Hunk headers with the new-side count 0 -/

theorem onlyZeroCounts_of_submatch (lines : List GoString)
    (h : ∀ l ∈ lines, FindStringSubmatch l = [] ∨
      ((FindStringSubmatch l).getD 2 [] ≠ [] ∧
        decimal ((FindStringSubmatch l).getD 2 []) = 0)) :
    OnlyZeroCounts lines := by
  intro l hl A B C D rest hA hB hC hD heq
  have hsub := FindStringSubmatch_hunkLine A B C D rest hA hB hC hD
  rw [← heq] at hsub
  rcases h l hl with h0 | ⟨h1, h2⟩
  · rw [h0] at hsub; exact absurd hsub (by simp)
  · rw [hsub] at h1 h2
    simp only [List.getD_cons_succ, List.getD_cons_zero] at h1 h2
    cases D with
    | none => exact absurd rfl h1
    | some d => exact ⟨d, rfl, h2⟩

theorem hunkOf_zero_count (lines : List GoString) (hzero : OnlyZeroCounts lines)
    (l : GoString) (hl : l ∈ lines) (r : lineInfo) (h : hunkOf l = some r) :
    (0 ≤ r.start ∧ r.start < 2 ^ 63) ∧ r.end_ = 0 := by
  refine ⟨(hunkOf_bounds l r h).1, ?_⟩
  obtain ⟨A, B, C, D, rest, hA, hB, hC, hD, heq⟩ := hunkOf_some l r h
  obtain ⟨d, hd, hdz⟩ := hzero l hl A B C D rest hA hB hC hD heq
  rw [heq, hunkOf_hunkLine_raw A B C D rest hA hB hC hD, hd] at h
  simp only [Option.getD_some, Option.some.injEq] at h
  rw [← h]
  have := Atoi_numeral d (hD d hd) (by rw [hdz]; norm_num)
  simp only [this, hdz]
  rfl

theorem parseStep_keys_mono (mod : GoString) (st st' : ParseState) (line k : GoString)
    (hk : k ∈ mapKeys st.diffs) (hstep : parseStep mod st line = some st') :
    k ∈ mapKeys st'.diffs := by
  by_cases hh : isHeader line = true
  · rw [parseStep_of_header mod st line hh] at hstep
    obtain ⟨tok, htok⟩ := lastToken_isSome line
    rw [headerStep_eq mod st line tok htok] at hstep
    by_cases he : eligible tok = true
    · rw [if_pos he] at hstep
      cases hget : mapGet st.diffs tok with
      | some v =>
        rw [hget] at hstep
        simp only [Option.some.injEq] at hstep
        rw [← hstep]; exact hk
      | none =>
        rw [hget] at hstep
        simp only [Option.some.injEq] at hstep
        rw [← hstep]
        exact (mem_mapKeys_mapSet _ _ _ _).2 (Or.inl hk)
    · rw [if_neg he] at hstep
      simp only [Option.some.injEq] at hstep
      rw [← hstep]; exact hk
  · have hh' : isHeader line = false := by simpa using hh
    rcases parseStep_of_not_header mod st line hh' with h2 | ⟨_, h2⟩
    · rw [h2] at hstep
      simp only [Option.some.injEq] at hstep
      rw [← hstep]; exact hk
    · rw [h2] at hstep
      simp only [Option.some.injEq] at hstep
      rw [← hstep]
      rcases hunkStep_cases st line with h3 | ⟨_, r, _, h3⟩
      · rw [h3]; exact hk
      · rw [h3]
        exact (mem_mapKeys_mapSet _ _ _ _).2 (Or.inl hk)

theorem parseLoop_keys_mono (mod : GoString) (lines : List GoString) (st st' : ParseState)
    (k : GoString) (hk : k ∈ mapKeys st.diffs) (hloop : parseLoop mod lines st = some st') :
    k ∈ mapKeys st'.diffs := by
  induction lines generalizing st with
  | nil =>
    simp only [parseLoop, Option.some.injEq] at hloop
    rw [← hloop]; exact hk
  | cons l ls ih =>
    obtain ⟨st1, h1⟩ := parseStep_total mod st l
    simp only [parseLoop, h1] at hloop
    exact ih st1 (parseStep_keys_mono mod st st1 l k hk h1) hloop

/-- The map returned is empty exactly when no `diff --git` line has an eligible last
token. -/
theorem parseLoop_empty_iff (mod : GoString) (lines : List GoString) (st : ParseState)
    (hloop : parseLoop mod lines parseInit = some st) :
    st.diffs = [] ↔ ∀ l ∈ lines, headerToken l = none := by
  constructor
  · intro hempty l hl
    by_contra hne
    obtain ⟨tok, htok⟩ := Option.ne_none_iff_exists'.1 hne
    have he := (headerToken_eq_some l tok).1 htok
    obtain ⟨pre, post, hsplit⟩ := List.append_of_mem hl
    rw [hsplit, parseLoop_append] at hloop
    obtain ⟨st0, h0⟩ := parseLoop_total mod pre parseInit
    rw [h0] at hloop
    simp only [Option.bind, parseLoop] at hloop
    obtain ⟨st1, h1⟩ := parseStep_total mod st0 l
    rw [h1] at hloop
    simp only at hloop
    have hkey : ∃ k, k ∈ mapKeys st1.diffs := by
      have h1' := h1
      rw [parseStep_of_header mod st0 l he.1, headerStep_eq mod st0 l tok he.2.1,
        if_pos he.2.2] at h1'
      cases hget : mapGet st0.diffs tok with
      | some v =>
        rw [hget] at h1'
        simp only [Option.some.injEq] at h1'
        rw [← h1']
        refine ⟨tok, ?_⟩
        by_contra hnot
        rw [(mapGet_eq_none_iff _ _).2 hnot] at hget
        exact absurd hget (by simp)
      | none =>
        rw [hget] at h1'
        simp only [Option.some.injEq] at h1'
        rw [← h1']
        exact ⟨qualify mod tok, (mem_mapKeys_mapSet _ _ _ _).2 (Or.inr rfl)⟩
    obtain ⟨k, hk⟩ := hkey
    have := parseLoop_keys_mono mod post st1 st k hk hloop
    rw [hempty] at this
    simp [mapKeys] at this
  · intro hnone
    have hinv := parseLoop_inv mod lines [] parseInit st (parseInv_init mod) hloop
    simp only [List.nil_append] at hinv
    cases hd : st.diffs with
    | nil => rfl
    | cons entry rest =>
      exfalso
      obtain ⟨l, hl, tok, he, _⟩ := hinv.keys entry.1 (by simp [hd, mapKeys])
      have := hnone l hl
      rw [(headerToken_eq_some l tok).2 he] at this
      exact absurd this (by simp)

/-- C15 (amended): for every diff text in which every hunk header has the new-side count
0, `parseDiff` returns a map in which every range has the length 0; the map is empty
exactly when no line that the scanner delivers is a `diff --git` line with an eligible
last token; and the matcher writes block `i` of a file if and only if the block ends at
or before the start line of one of the ranges of the file, so the output is the mode
header alone only when there is no such block. -/
theorem C15_zero_count_hunks_are_stored (mod diff : GoString)
    (hzero : OnlyZeroCounts (ScanLines diff)) :
    ∃ d, parseDiff mod diff = some d ∧
      (∀ entry ∈ d, ∀ r ∈ entry.2, r.end_ = 0) ∧
      (d = [] ↔ ∀ l ∈ ScanLines diff, headerToken l = none) ∧
      (∀ profiles f i, emits (matcher d profiles) f i ↔
        ∃ lines, (f, lines) ∈ d ∧ ∃ p ∈ profiles, p.FileName = f ∧
          ∃ b, p.Blocks[i]? = some b ∧ ∃ r ∈ lines, b.EndLine ≤ r.start) := by
  obtain ⟨st, hst⟩ := parseLoop_total mod (ScanLines diff) parseInit
  have hall := parseLoop_allRanges (fun r => (0 ≤ r.start ∧ r.start < 2 ^ 63) ∧ r.end_ = 0)
    mod (ScanLines diff) parseInit st
    (fun l hl r hr => hunkOf_zero_count _ hzero l hl r hr)
    (fun entry he => by simp [parseInit] at he) hst
  refine ⟨st.diffs, by simp [parseDiff, hst], fun entry he r hr => (hall entry he r hr).2,
    parseLoop_empty_iff mod _ st hst, fun profiles f i => ?_⟩
  have hsel : ∀ entry ∈ st.diffs, ∀ r ∈ entry.2, ∀ b : ProfileBlock,
      selects r b = true ↔ b.EndLine ≤ r.start := by
    intro entry he r hr b
    obtain ⟨⟨h0, h1⟩, h2⟩ := hall entry he r hr
    rw [selects_iff r b (by rw [h2]; exact ⟨by omega, by omega⟩), h2]
    simp
  rw [(matcher_spec st.diffs profiles).2]
  constructor
  · rintro ⟨entry, he, p, hp, hname, hf, line, hl, b, hb, hs⟩
    obtain ⟨k, lines⟩ := entry
    simp only at hname hl
    refine ⟨lines, ?_, p, hp, hf.symm, b, hb, line, hl, (hsel _ he line hl b).1 hs⟩
    rw [hf, hname]; exact he
  · rintro ⟨lines, he, p, hp, hf, b, hb, r, hr, hle⟩
    exact ⟨(f, lines), he, p, hp, hf, hf.symm, r, hr, b, hb, (hsel _ he r hr b).2 hle⟩

/-- Witness of C15: the diff of a Go file with three lines deleted and none added; the
range `{11, 0}` is stored, and it selects the block of lines 1 to 2. -/
theorem C15_zero_count_hunks_are_stored_witness :
    OnlyZeroCounts (ScanLines diffDeletion) ∧
      parseDiff (utf8 "example.com/m") diffDeletion = some [(xgo, [⟨11, 0⟩])] ∧
      emits (matcher [(xgo, [⟨11, 0⟩])] [⟨xgo, utf8 "set", [block2, block14]⟩]) xgo 0 ∧
      ¬ emits (matcher [(xgo, [⟨11, 0⟩])] [⟨xgo, utf8 "set", [block2, block14]⟩]) xgo 1 := by
  have hz : OnlyZeroCounts (ScanLines diffDeletion) :=
    onlyZeroCounts_of_submatch _ (by decide)
  have hev : parseDiff (utf8 "example.com/m") diffDeletion = some [(xgo, [⟨11, 0⟩])] := by
    decide
  obtain ⟨d, hd, _, _, hm⟩ := C15_zero_count_hunks_are_stored (utf8 "example.com/m")
    diffDeletion hz
  rw [hev] at hd
  simp only [Option.some.injEq] at hd
  subst hd
  refine ⟨hz, hev, (hm _ xgo 0).2 ?_, by decide⟩
  exact ⟨[⟨11, 0⟩], by simp, ⟨xgo, utf8 "set", [block2, block14]⟩, by simp, rfl, block2, rfl,
    ⟨11, 0⟩, by simp, by decide⟩

/-- Counterexample to C15 as stated: in the diff of a Go file with three lines deleted
and none added, the only hunk header has the new-side count 0, but the map returned is
not empty, and with a profile whose block ends at line 2 the output holds the line of
that block after the mode header. -/
theorem C15_counterexample_deletion_hunk_is_stored :
    OnlyZeroCounts (ScanLines diffDeletion) ∧
      parseDiff (utf8 "example.com/m") diffDeletion = some [(xgo, [⟨11, 0⟩])] ∧
      parseDiff (utf8 "example.com/m") diffDeletion ≠ some [] ∧
      parseText [(xgo, [⟨11, 0⟩])] [⟨xgo, utf8 "set", [block2]⟩]
        = utf8 "mode: count\nexample.com/m/pkg/x.go:1.1,2.1 1 0\n" ∧
      parseText [(xgo, [⟨11, 0⟩])] [⟨xgo, utf8 "set", [block2]⟩] ≠ utf8 "mode: count\n" :=
  ⟨onlyZeroCounts_of_submatch _ (by decide), by decide, by decide, by decide, by decide⟩

/-! ## The existence test of line 68 -/

/-- The effect of the test of line 68: an eligible `diff --git` line whose last token is
not a key of the map binds the key made of the token to the empty sequence, whatever was stored under
that key, and makes it the current key; when the token is a key of the map the line
changes nothing.  In a run over a text in which no eligible last token is a key made by
an eligible `diff --git` line of the text (`GuardNeverFires`; a module root other than
`b` is not enough for this), the test of line 68 is false at every eligible
`diff --git` line, and when the same line occurs twice the ranges stored under its key
are those of the lines after its last occurrence only. -/
theorem header_rebinds_key_when_token_is_no_key (mod : GoString) :
    (∀ st line tok, EligibleHeader line tok → mapGet st.diffs tok = none →
      ∃ st', parseStep mod st line = some st' ∧
        mapGet st'.diffs (qualify mod tok) = some [] ∧
        st'.newp = qualify mod tok ∧ st'.trueFile = true) ∧
    (∀ st line tok, EligibleHeader line tok → mapGet st.diffs tok ≠ none →
      parseStep mod st line = some st) ∧
    (∀ pre line tok st, GuardNeverFires mod (pre ++ [line]) → EligibleHeader line tok →
      parseLoop mod pre parseInit = some st → mapGet st.diffs tok = none) ∧
    (∀ pre h tok mid body post, EligibleHeader h tok →
      (∀ l ∈ body, isHeader l = false) → (∀ l ∈ post.head?, isHeader l = true) →
      (∀ l ∈ post, headerKey mod l ≠ some (qualify mod tok)) →
      GuardNeverFires mod (pre ++ h :: (mid ++ h :: (body ++ post))) →
      ∃ st, parseLoop mod (pre ++ h :: (mid ++ h :: (body ++ post))) parseInit = some st ∧
        mapGet st.diffs (qualify mod tok) = some (body.filterMap hunkOf)) := by
  refine ⟨?_, ?_, ?_, ?_⟩
  · intro st line tok he hget
    refine ⟨⟨mapSet st.diffs (qualify mod tok) [], qualify mod tok, true⟩, ?_,
      mapGet_mapSet_same _ _ _, rfl, rfl⟩
    rw [parseStep_of_header mod st line he.1, headerStep_eq mod st line tok he.2.1,
      if_pos he.2.2, hget]
  · intro st line tok he hget
    rw [parseStep_of_header mod st line he.1, headerStep_eq mod st line tok he.2.1,
      if_pos he.2.2]
    cases hg : mapGet st.diffs tok with
    | none => exact absurd hg hget
    | some v => rfl
  · intro pre line tok st hguard he hloop
    have hinv := parseLoop_inv mod pre [] parseInit st (parseInv_init mod) hloop
    simp only [List.nil_append] at hinv
    exact guard_none mod _ pre st line tok hguard (fun l hl => by simp [hl]) (by simp) hinv he
  · intro pre h tok mid body post he hbody hpost hone hguard
    have hlist : pre ++ h :: (mid ++ h :: (body ++ post))
        = (pre ++ h :: mid) ++ h :: (body ++ post) := by simp
    rw [hlist] at hguard ⊢
    exact parseLoop_section mod (pre ++ h :: mid) h tok body post he hbody hpost hone hguard

/-- An instance of `header_rebinds_key_when_token_is_no_key`: with the module root
`example.com/m` and two sections of `pkg/x.go`, the range `{1, 0}` of the first section
is discarded and the range `{7, 2}` of the second one remains. -/
theorem header_rebinds_key_when_token_is_no_key_example :
    GuardNeverFires (utf8 "example.com/m") (ScanLines diffTwice) ∧
      parseLoop (utf8 "example.com/m")
          [utf8 "diff --git a/pkg/x.go b/pkg/x.go", utf8 "@@ -1 +1 @@"] parseInit
        = some ⟨[(xgo, [⟨1, 0⟩])], xgo, true⟩ ∧
      (∃ st, parseLoop (utf8 "example.com/m") (ScanLines diffTwice) parseInit = some st ∧
        mapGet st.diffs xgo = some [⟨7, 2⟩]) ∧
      parseDiff (utf8 "example.com/m") diffTwice = some [(xgo, [⟨7, 2⟩])] := by
  have hg : GuardNeverFires (utf8 "example.com/m") (ScanLines diffTwice) := by decide
  have hscan : ScanLines diffTwice = [] ++ utf8 "diff --git a/pkg/x.go b/pkg/x.go" ::
      ([utf8 "@@ -1 +1 @@"] ++ utf8 "diff --git a/pkg/x.go b/pkg/x.go" ::
        ([utf8 "@@ -5 +7,2 @@"] ++ [])) := by decide
  have key := (header_rebinds_key_when_token_is_no_key (utf8 "example.com/m")).2.2.2
    [] (utf8 "diff --git a/pkg/x.go b/pkg/x.go") (utf8 "b/pkg/x.go") [utf8 "@@ -1 +1 @@"]
    [utf8 "@@ -5 +7,2 @@"] [] ⟨by decide, by decide, by decide⟩ (by decide) (by simp)
    (by simp) (by rw [← hscan]; exact hg)
  refine ⟨hg, by decide, ?_, by decide⟩
  obtain ⟨st, hst, hget⟩ := key
  rw [← hscan] at hst
  refine ⟨st, hst, ?_⟩
  rw [show qualify (utf8 "example.com/m") (utf8 "b/pkg/x.go") = xgo from by decide] at hget
  rw [hget]
  decide

/-- C19 (the code does not do this): the module root `b/m` is not `b`, and for both
`diff --git` lines of the text the key made differs from the last token; but when the
second one is read, its last token `b/m/x.go` is a key of the map (the key of `x.go`), so
the test of line 68, which looks up the raw token where lines 71, 86 and 93 use the
qualified path, is true: the eligible line binds no key to an empty sequence, its key
`b/m/m/x.go` is never bound, and its range is stored under the key of `x.go`. -/
theorem C19_guard_is_true_for_root_with_b_element :
    utf8 "b/m" ≠ utf8 "b" ∧
      (∀ l ∈ ScanLines diffNested,
        headerKey (utf8 "b/m") l = none ∨ headerKey (utf8 "b/m") l ≠ headerToken l) ∧
      parseLoop (utf8 "b/m") [utf8 "diff --git a/x.go b/x.go", utf8 "@@ -1 +1 @@"] parseInit
        = some ⟨[(utf8 "b/m/x.go", [⟨1, 0⟩])], utf8 "b/m/x.go", true⟩ ∧
      headerToken (utf8 "diff --git a/m/x.go b/m/x.go") = some (utf8 "b/m/x.go") ∧
      mapGet [(utf8 "b/m/x.go", [(⟨1, 0⟩ : lineInfo)])] (utf8 "b/m/x.go") = some [⟨1, 0⟩] ∧
      parseStep (utf8 "b/m") ⟨[(utf8 "b/m/x.go", [⟨1, 0⟩])], utf8 "b/m/x.go", true⟩
          (utf8 "diff --git a/m/x.go b/m/x.go")
        = some ⟨[(utf8 "b/m/x.go", [⟨1, 0⟩])], utf8 "b/m/x.go", true⟩ ∧
      parseDiff (utf8 "b/m") diffNested = some [(utf8 "b/m/x.go", [⟨1, 0⟩, ⟨7, 2⟩])] := by
  decide

/-! ## The selection of one file -/

theorem le_maxFar_iff (lines : List lineInfo) (hne : lines ≠ []) (x : Int) :
    x ≤ maxFar lines ↔ ∃ r ∈ lines, x ≤ r.start + r.end_ := by
  induction lines with
  | nil => exact absurd rfl hne
  | cons r rs ih =>
    cases rs with
    | nil => simp [maxFar]
    | cons r' rs' =>
      have := ih (by simp)
      simp only [maxFar, le_max_iff, this, List.mem_cons, exists_eq_or_imp]

theorem mapEntry_unique (diffs : Diff) (hkeys : (mapKeys diffs).Nodup) (k : GoString)
    (v v' : List lineInfo) (h : (k, v) ∈ diffs) (h' : (k, v') ∈ diffs) : v = v' := by
  have := List.inj_on_of_nodup_map hkeys h h' rfl
  exact (Prod.mk.injEq _ _ _ _ ▸ this).2

/-- The blocks of a file that the matcher writes, when the keys of the map and the file
names of the profiles are pairwise distinct. -/
theorem emits_file_iff (diffs : Diff) (profiles : List Profile) (f : GoString)
    (lines : List lineInfo) (p : Profile) (hkeys : (mapKeys diffs).Nodup)
    (hnames : (profiles.map Profile.FileName).Nodup) (hmem : (f, lines) ∈ diffs)
    (hp : p ∈ profiles) (hpf : p.FileName = f) (hov : NoOverflow diffs) (i : Nat) :
    emits (matcher diffs profiles) f i ↔
      ∃ b, p.Blocks[i]? = some b ∧ ∃ r ∈ lines, b.EndLine ≤ r.start + r.end_ := by
  rw [(matcher_spec diffs profiles).2]
  constructor
  · rintro ⟨entry, he, p', hp', hname, hf, line, hl, b, hb, hs⟩
    obtain ⟨k, lines'⟩ := entry
    simp only at hname hl
    have hk : k = f := by rw [← hname, ← hf]
    subst hk
    have hlines : lines' = lines := mapEntry_unique diffs hkeys _ _ _ he hmem
    subst hlines
    have hpp : p' = p := List.inj_on_of_nodup_map hnames hp' hp (by rw [hname, hpf])
    subst hpp
    exact ⟨b, hb, line, hl, (selects_iff line b (hov _ he line hl)).1 hs⟩
  · rintro ⟨b, hb, r, hr, hle⟩
    exact ⟨(f, lines), hmem, p, hp, hpf, hpf.symm, r, hr, b, hb,
      (selects_iff r b (hov _ hmem r hr)).2 hle⟩

/-- C16: for a file that is a key of the map with a non-empty sequence of ranges and the
file name of a profile (keys and file names pairwise distinct, no `int64` overflow), the
blocks written are exactly those with `EndLine <= ` the largest `start + length` of the
ranges.  So two sequences of ranges with the same largest value, and in particular a
sequence and a permutation of it, select the same blocks, and a sequence that holds all
the ranges of another selects every block the other selects. -/
theorem C16_selection_is_bounded_by_largest_far_end (diffs diffs' : Diff)
    (profiles : List Profile) (f : GoString) (lines lines' : List lineInfo) (p : Profile)
    (hkeys : (mapKeys diffs).Nodup) (hkeys' : (mapKeys diffs').Nodup)
    (hnames : (profiles.map Profile.FileName).Nodup)
    (hmem : (f, lines) ∈ diffs) (hmem' : (f, lines') ∈ diffs')
    (hp : p ∈ profiles) (hpf : p.FileName = f) (hne : lines ≠ []) (hne' : lines' ≠ [])
    (hov : NoOverflow diffs) (hov' : NoOverflow diffs') :
    (∀ i, emits (matcher diffs profiles) f i ↔
      ∃ b, p.Blocks[i]? = some b ∧ b.EndLine ≤ maxFar lines) ∧
    (maxFar lines' = maxFar lines →
      ∀ i, emits (matcher diffs' profiles) f i ↔ emits (matcher diffs profiles) f i) ∧
    (lines'.Perm lines →
      maxFar lines' = maxFar lines ∧
        ∀ i, emits (matcher diffs' profiles) f i ↔ emits (matcher diffs profiles) f i) ∧
    ((∀ r ∈ lines, r ∈ lines') →
      maxFar lines ≤ maxFar lines' ∧
        ∀ i, emits (matcher diffs profiles) f i → emits (matcher diffs' profiles) f i) := by
  have h1 : ∀ i, emits (matcher diffs profiles) f i ↔
      ∃ b, p.Blocks[i]? = some b ∧ b.EndLine ≤ maxFar lines := by
    intro i
    rw [emits_file_iff diffs profiles f lines p hkeys hnames hmem hp hpf hov]
    simp only [le_maxFar_iff lines hne]
  have h1' : ∀ i, emits (matcher diffs' profiles) f i ↔
      ∃ b, p.Blocks[i]? = some b ∧ b.EndLine ≤ maxFar lines' := by
    intro i
    rw [emits_file_iff diffs' profiles f lines' p hkeys' hnames hmem' hp hpf hov']
    simp only [le_maxFar_iff lines' hne']
  have hmono : (∀ r ∈ lines, r ∈ lines') → maxFar lines ≤ maxFar lines' := by
    intro hsub
    rw [le_maxFar_iff lines' hne']
    obtain ⟨r, hr, hle⟩ := (le_maxFar_iff lines hne (maxFar lines)).1 (le_refl _)
    exact ⟨r, hsub r hr, hle⟩
  have hmono' : (∀ r ∈ lines', r ∈ lines) → maxFar lines' ≤ maxFar lines := by
    intro hsub
    rw [le_maxFar_iff lines hne]
    obtain ⟨r, hr, hle⟩ := (le_maxFar_iff lines' hne' (maxFar lines')).1 (le_refl _)
    exact ⟨r, hsub r hr, hle⟩
  have heq : maxFar lines' = maxFar lines →
      ∀ i, emits (matcher diffs' profiles) f i ↔ emits (matcher diffs profiles) f i := by
    intro hmax i
    rw [h1, h1', hmax]
  refine ⟨h1, heq, fun hperm => ?_, fun hsub => ⟨hmono hsub, fun i hi => ?_⟩⟩
  · have hmax : maxFar lines' = maxFar lines :=
      le_antisymm (hmono' fun r hr => hperm.mem_iff.1 hr) (hmono fun r hr => hperm.mem_iff.2 hr)
    exact ⟨hmax, heq hmax⟩
  · obtain ⟨b, hb, hle⟩ := (h1 i).1 hi
    exact (h1' i).2 ⟨b, hb, le_trans hle (hmono hsub)⟩

/-- Witness of C16: the ranges `{1, 1}` and `{12, 3}` have the largest far end 15, in
both orders; the block that ends at line 14 is selected and the block that ends at line
20 is not. -/
theorem C16_selection_is_bounded_by_largest_far_end_witness :
    maxFar [⟨1, 1⟩, range12] = 15 ∧ maxFar [range12, ⟨1, 1⟩] = 15 ∧
      (emits (matcher [(xgo, [range12, ⟨1, 1⟩])] [⟨xgo, utf8 "set", [block14, block20]⟩]) xgo 0 ↔
        emits (matcher [(xgo, [⟨1, 1⟩, range12])] [⟨xgo, utf8 "set", [block14, block20]⟩])
          xgo 0) ∧
      emits (matcher [(xgo, [⟨1, 1⟩, range12])] [⟨xgo, utf8 "set", [block14, block20]⟩]) xgo 0 ∧
      ¬ emits (matcher [(xgo, [⟨1, 1⟩, range12])] [⟨xgo, utf8 "set", [block14, block20]⟩])
        xgo 1 := by
  have key := C16_selection_is_bounded_by_largest_far_end
    [(xgo, [⟨1, 1⟩, range12])] [(xgo, [range12, ⟨1, 1⟩])]
    [⟨xgo, utf8 "set", [block14, block20]⟩] xgo [⟨1, 1⟩, range12] [range12, ⟨1, 1⟩]
    ⟨xgo, utf8 "set", [block14, block20]⟩ (by decide) (by decide) (by decide) (by simp)
    (by simp) (by simp) rfl (by simp) (by simp) (by decide) (by decide)
  refine ⟨by decide, by decide, key.2.2.1 (List.Perm.swap _ _ _) |>.2 0, ?_, ?_⟩
  · exact (key.1 0).2 ⟨block14, rfl, by decide⟩
  · intro h
    obtain ⟨b, hb, hle⟩ := (key.1 1).1 h
    simp only [List.getElem?_cons_succ, List.getElem?_cons_zero, Option.some.injEq] at hb
    subst hb
    revert hle
    decide

/-! ## Lines with the same position -/

/-- C13 (amended): for every map and every list of profiles with one profile per file
name in which the blocks of a profile have pairwise distinct positions, no two lines of
the output of the matcher have the same file and the same position
`startLine.startCol,endLine.endCol`. -/
theorem C13_no_two_lines_share_a_position (diffs : Diff) (profiles : List Profile)
    (hnames : (profiles.map Profile.FileName).Nodup)
    (hblocks : ∀ p ∈ profiles, (p.Blocks.map blockPos).Nodup) :
    ((matcher diffs profiles).emitted.map fun e => (e.file, blockPos e.block)).Nodup := by
  have hinv := (matcher_spec diffs profiles).1
  have hnd : (matcher diffs profiles).emitted.Nodup := List.Nodup.of_map _ hinv.nodup
  refine List.Nodup.map_on (fun e1 h1 e2 h2 heq => ?_) hnd
  simp only [Prod.mk.injEq] at heq
  obtain ⟨hfile, hpos⟩ := heq
  obtain ⟨p1, hp1, hn1, hb1⟩ := hinv.block_of e1 h1
  obtain ⟨p2, hp2, hn2, hb2⟩ := hinv.block_of e2 h2
  have hpp : p1 = p2 := List.inj_on_of_nodup_map hnames hp1 hp2 (by rw [hn1, hn2, hfile])
  subst hpp
  have hidx : e1.index = e2.index := by
    have hlt : e1.index < (p1.Blocks.map blockPos).length := by
      rw [List.length_map]
      exact (List.getElem?_eq_some_iff.1 hb1).1
    apply List.getElem?_inj hlt (hblocks p1 hp1)
    rw [List.getElem?_map, List.getElem?_map, hb1, hb2]
    simp [hpos]
  have hblock : e1.block = e2.block := by
    rw [hidx, hb2] at hb1
    exact (Option.some.inj hb1).symm
  cases e1
  cases e2
  simp_all

/-- Witness of C13: a profile with the two blocks of the scenarios; both positions
differ, and the one line written has its own position. -/
theorem C13_no_two_lines_share_a_position_witness :
    ([Profile.mk xgo (utf8 "set") [block14, block20]].map Profile.FileName).Nodup ∧
      ((matcher [(xgo, [range12])] [⟨xgo, utf8 "set", [block14, block20]⟩]).emitted.map
        fun e => (e.file, blockPos e.block)).Nodup :=
  ⟨by decide, C13_no_two_lines_share_a_position [(xgo, [range12])]
    [⟨xgo, utf8 "set", [block14, block20]⟩] (by decide)
    (by intro p hp; simp only [List.mem_singleton] at hp; subst hp; decide)⟩

set_option maxRecDepth 8000 in
/-- Counterexample to C13 as stated: the profile of a coverage file with the three lines
`1.1,2.2 1 1`, `1.1,3.3 2 1` and `1.1,2.2 1 1` of one file.  No block starts before an
earlier one, so the sort by start of `cover.ParseProfiles` has nothing to move, and no
two neighbours have the same position, so its merge of neighbours with one position
joins nothing: the list has the position `1.1,2.2` at the indices 0 and 2.  The set
`fname2index` holds indices, and with the range `{12, 3}` the matcher writes the line of
`1.1,2.2` twice. -/
theorem C13_counterexample_equal_blocks_apart :
    [blockShort, blockLong, blockShort].Pairwise (fun a b => ¬ StartsBefore b a) ∧
      [blockShort, blockLong, blockShort].Chain' (fun a b => blockPos a ≠ blockPos b) ∧
      parseText [(xgo, [range12])] [⟨xgo, utf8 "count", [blockShort, blockLong, blockShort]⟩]
        = utf8 ("mode: count\nexample.com/m/pkg/x.go:1.1,2.2 1 1\n" ++
            "example.com/m/pkg/x.go:1.1,3.3 2 1\nexample.com/m/pkg/x.go:1.1,2.2 1 1\n") ∧
      ¬ ((matcher [(xgo, [range12])]
          [⟨xgo, utf8 "count", [blockShort, blockLong, blockShort]⟩]).emitted.map
            fun e => (e.file, blockPos e.block)).Nodup := by
  refine ⟨by decide, ?_, by decide, ?_⟩
  · rw [List.chain'_cons, List.chain'_cons]
    exact ⟨by decide, by decide, List.chain'_singleton _⟩
  have hem : (matcher [(xgo, [range12])]
      [⟨xgo, utf8 "count", [blockShort, blockLong, blockShort]⟩]).emitted
      = [⟨xgo, 0, blockShort⟩, ⟨xgo, 1, blockLong⟩, ⟨xgo, 2, blockShort⟩] := by decide
  rw [hem]
  decide

/-! ## The order of the lines -/

theorem enumFrom_pairwise (n : Nat) (blocks : List ProfileBlock) :
    (List.enumFrom n blocks).Pairwise fun a b => a.1 < b.1 := by
  induction blocks generalizing n with
  | nil => simp
  | cons b bs ih =>
    rw [List.enumFrom_cons, List.pairwise_cons]
    refine ⟨fun a ha => ?_, ih (n + 1)⟩
    have := List.le_fst_of_mem_enumFrom ha
    show n < a.1
    omega

/-- The writes of one pass over indexed blocks form a group in increasing order of
index. -/
theorem blockFold_group (f : GoString) (line : lineInfo) (ibs : List (Nat × ProfileBlock))
    (hsorted : ibs.Pairwise fun a b => a.1 < b.1) (st : MatchState) :
    ∃ group, (ibs.foldl (blockStep f line) st).emitted = st.emitted ++ group ∧
      IndexIncreasing group ∧ ∀ e ∈ group, e.file = f ∧ (e.index, e.block) ∈ ibs := by
  induction ibs generalizing st with
  | nil => exact ⟨[], by simp, List.Pairwise.nil, by simp⟩
  | cons ib rest ih =>
    rw [List.pairwise_cons] at hsorted
    obtain ⟨group, hg, hinc, hmem⟩ := ih hsorted.2 (blockStep f line st ib)
    have hstep : (blockStep f line st ib).emitted = st.emitted ∨
        (blockStep f line st ib).emitted = st.emitted ++ [⟨f, ib.1, ib.2⟩] := by
      unfold blockStep
      by_cases h1 : ib.1 ∈ seenOf st f
      · rw [if_pos h1]; exact Or.inl rfl
      · rw [if_neg h1]
        by_cases h2 : selects line ib.2 = true
        · rw [if_pos h2]; exact Or.inr rfl
        · rw [if_neg h2]; exact Or.inl rfl
    rcases hstep with h0 | h0
    · refine ⟨group, by rw [List.foldl_cons, hg, h0], hinc, fun e he => ?_⟩
      exact ⟨(hmem e he).1, by simp [(hmem e he).2]⟩
    · refine ⟨⟨f, ib.1, ib.2⟩ :: group, by rw [List.foldl_cons, hg, h0]; simp, ?_, ?_⟩
      · unfold IndexIncreasing
        rw [List.pairwise_cons]
        exact ⟨fun e he => hsorted.1 (e.index, e.block) (hmem e he).2, hinc⟩
      · intro e he
        simp only [List.mem_cons] at he
        rcases he with he | he
        · subst he; exact ⟨rfl, by simp⟩
        · exact ⟨(hmem e he).1, by simp [(hmem e he).2]⟩

theorem blocksLoop_group (p : Profile) (st : MatchState) (line : lineInfo) :
    ∃ group, (blocksLoop p st line).emitted = st.emitted ++ group ∧
      IndexIncreasing group ∧ ∀ e ∈ group, e.file = p.FileName := by
  obtain ⟨group, h1, h2, h3⟩ := blockFold_group p.FileName line p.Blocks.enum
    (enumFrom_pairwise 0 p.Blocks) st
  exact ⟨group, h1, h2, fun e he => (h3 e he).1⟩

theorem linesFold_groups (p : Profile) (lines : List lineInfo) (st : MatchState) :
    ∃ groups : List (List Emitted), groups.length = lines.length ∧
      (lines.foldl (blocksLoop p) st).emitted = st.emitted ++ groups.flatten ∧
      ∀ g ∈ groups, IndexIncreasing g ∧ ∀ e ∈ g, e.file = p.FileName := by
  induction lines generalizing st with
  | nil => exact ⟨[], rfl, by simp, by simp⟩
  | cons line rest ih =>
    obtain ⟨g, hg, hinc, hfile⟩ := blocksLoop_group p st line
    obtain ⟨groups, hlen, hem, hall⟩ := ih (blocksLoop p st line)
    refine ⟨g :: groups, by simp [hlen], ?_, ?_⟩
    · rw [List.foldl_cons, hem, hg]; simp
    · intro g' hg'
      simp only [List.mem_cons] at hg'
      rcases hg' with hg' | hg'
      · subst hg'; exact ⟨hinc, hfile⟩
      · exact hall g' hg'

/-- C12 (amended): for every profile and every sequence of ranges, the lines written
for the file are the concatenation of one group per range, in the order of the ranges,
and each group is in increasing order of block index: the lines written while one range
is scanned follow the scan order of the blocks.  With one range and one profile the
whole output is in increasing order of block index. -/
theorem C12_lines_are_increasing_within_a_range :
    (∀ p st line, ∃ group, (blocksLoop p st line).emitted = st.emitted ++ group ∧
      IndexIncreasing group ∧ ∀ e ∈ group, e.file = p.FileName) ∧
    (∀ (p : Profile) lines st, ∃ groups : List (List Emitted),
      groups.length = lines.length ∧
      (profileStep p.FileName lines st p).emitted = st.emitted ++ groups.flatten ∧
      ∀ g ∈ groups, IndexIncreasing g ∧ ∀ e ∈ g, e.file = p.FileName) ∧
    (∀ (p : Profile) r, IndexIncreasing (matcher [(p.FileName, [r])] [p]).emitted) := by
  have hprof : ∀ (p : Profile) lines st, ∃ groups : List (List Emitted),
      groups.length = lines.length ∧
      (profileStep p.FileName lines st p).emitted = st.emitted ++ groups.flatten ∧
      ∀ g ∈ groups, IndexIncreasing g ∧ ∀ e ∈ g, e.file = p.FileName := by
    intro p lines st
    unfold profileStep
    rw [if_neg (by simp)]
    cases mapGet st.fname2index p.FileName with
    | some v => exact linesFold_groups p lines st
    | none => exact linesFold_groups p lines _
  refine ⟨blocksLoop_group, hprof, fun p r => ?_⟩
  obtain ⟨groups, hlen, hem, hall⟩ := hprof p [r] matchInit
  have hm : (matcher [(p.FileName, [r])] [p]).emitted
      = (profileStep p.FileName [r] matchInit p).emitted := rfl
  rw [hm, hem]
  match groups, hlen, hall with
  | [g], _, hall =>
    have := (hall g (by simp)).1
    simpa [matchInit] using this

set_option maxRecDepth 8000 in
/-- Counterexample to C12 as stated: a profile as `cover.ParseProfiles` returns it, with
two blocks in the order of their starts, the second one inside the first, and the ranges
`{1, 2}` and `{12, 10}` in the order of the diff.  The first range selects the inner
block (index 1, it ends at line 3) and not the outer one (it ends at line 20); the second
range selects the outer block (index 0): the line of index 1 is written before the line
of index 0. -/
theorem C12_counterexample_nested_block_is_written_first :
    [blockOuter, blockInner].Pairwise StartsBefore ∧
      ([blockOuter, blockInner].map blockPos).Nodup ∧
      (matcher [(xgo, [⟨1, 2⟩, ⟨12, 10⟩])]
          [⟨xgo, utf8 "set", [blockOuter, blockInner]⟩]).emitted.map (fun e => e.index)
        = [1, 0] ∧
      parseText [(xgo, [⟨1, 2⟩, ⟨12, 10⟩])] [⟨xgo, utf8 "set", [blockOuter, blockInner]⟩]
        = utf8 ("mode: count\nexample.com/m/pkg/x.go:2.5,3.6 1 1\n" ++
            "example.com/m/pkg/x.go:1.1,20.2 5 1\n") ∧
      ¬ IndexIncreasing
        (matcher [(xgo, [⟨1, 2⟩, ⟨12, 10⟩])]
          [⟨xgo, utf8 "set", [blockOuter, blockInner]⟩]).emitted := by
  refine ⟨by decide, by decide, by decide, by decide, ?_⟩
  have hem : (matcher [(xgo, [⟨1, 2⟩, ⟨12, 10⟩])]
      [⟨xgo, utf8 "set", [blockOuter, blockInner]⟩]).emitted
      = [⟨xgo, 1, blockInner⟩, ⟨xgo, 0, blockOuter⟩] := by decide
  rw [hem]
  unfold IndexIncreasing
  simp

/-! ## The order in which the keys of the map are visited -/

theorem blockStep_sim (f : GoString) (pre : List Emitted) (line : lineInfo)
    (st st0 : MatchState) (ib : Nat × ProfileBlock) (h : SameOn f pre st st0) :
    SameOn f pre (blockStep f line st ib) (blockStep f line st0 ib) := by
  obtain ⟨hem, hseen⟩ := h
  unfold blockStep
  rw [hseen]
  by_cases h1 : ib.1 ∈ seenOf st0 f
  · rw [if_pos h1, if_pos h1]; exact ⟨hem, hseen⟩
  · rw [if_neg h1, if_neg h1]
    by_cases h2 : selects line ib.2 = true
    · rw [if_pos h2, if_pos h2]
      refine ⟨by simp [hem], ?_⟩
      simp only [seenOf, mapGet_mapSet_same]
    · rw [if_neg h2, if_neg h2]; exact ⟨hem, hseen⟩

theorem foldl_sim {α : Type} (R : MatchState → MatchState → Prop)
    (step : MatchState → α → MatchState)
    (hstep : ∀ st st0 x, R st st0 → R (step st x) (step st0 x)) (xs : List α)
    (st st0 : MatchState) (h : R st st0) : R (xs.foldl step st) (xs.foldl step st0) := by
  induction xs generalizing st st0 with
  | nil => exact h
  | cons x xs ih => exact ih _ _ (hstep st st0 x h)

theorem seenOf_ensure (st : MatchState) (f g : GoString)
    (h : mapGet st.fname2index f = none) :
    seenOf { st with fname2index := mapSet st.fname2index f [] } g = seenOf st g := by
  by_cases hg : g = f
  · subst hg
    simp only [seenOf, mapGet_mapSet_same, h, Option.getD_some, Option.getD_none]
  · simp only [seenOf, mapGet_mapSet_other _ _ _ _ hg]

theorem profileStep_sim (f : GoString) (pre : List Emitted) (lines : List lineInfo)
    (st st0 : MatchState) (p : Profile) (h : SameOn f pre st st0) :
    SameOn f pre (profileStep f lines st p) (profileStep f lines st0 p) := by
  unfold profileStep
  by_cases hname : p.FileName = f
  · rw [if_neg (not_not.2 hname), if_neg (not_not.2 hname)]
    subst hname
    have hloop : ∀ s s0 : MatchState, SameOn p.FileName pre s s0 →
        SameOn p.FileName pre (lines.foldl (blocksLoop p) s) (lines.foldl (blocksLoop p) s0) :=
      fun s s0 hs => foldl_sim (SameOn p.FileName pre) (blocksLoop p)
        (fun a a0 line ha => foldl_sim (SameOn p.FileName pre) (blockStep p.FileName line)
          (fun b b0 ib hb => blockStep_sim p.FileName pre line b b0 ib hb) _ a a0 ha)
        lines s s0 hs
    apply hloop
    cases h1 : mapGet st.fname2index p.FileName with
    | some v =>
      cases h2 : mapGet st0.fname2index p.FileName with
      | some v0 => exact h
      | none => exact ⟨h.1, by rw [seenOf_ensure st0 _ _ h2]; exact h.2⟩
    | none =>
      cases h2 : mapGet st0.fname2index p.FileName with
      | some v0 => exact ⟨h.1, by rw [seenOf_ensure st _ _ h1]; exact h.2⟩
      | none =>
        exact ⟨h.1, by rw [seenOf_ensure st _ _ h1, seenOf_ensure st0 _ _ h2]; exact h.2⟩
  · rw [if_pos hname, if_pos hname]; exact h

theorem diffStep_sim (profiles : List Profile) (entry : GoString × List lineInfo)
    (pre : List Emitted) (st st0 : MatchState) (h : SameOn entry.1 pre st st0) :
    SameOn entry.1 pre (diffStep profiles st entry) (diffStep profiles st0 entry) :=
  foldl_sim (SameOn entry.1 pre) (profileStep entry.1 entry.2)
    (fun s s0 p hs => profileStep_sim entry.1 pre entry.2 s s0 p hs) profiles st st0 h

theorem foldl_frame {α β : Type} (φ : MatchState → β) (step : MatchState → α → MatchState)
    (hstep : ∀ st x, φ (step st x) = φ st) (xs : List α) (st : MatchState) :
    φ (xs.foldl step st) = φ st := by
  induction xs generalizing st with
  | nil => rfl
  | cons x xs ih => rw [List.foldl_cons, ih, hstep]

theorem blockStep_frame (f g : GoString) (hg : g ≠ f) (line : lineInfo) (st : MatchState)
    (ib : Nat × ProfileBlock) : seenOf (blockStep f line st ib) g = seenOf st g := by
  unfold blockStep
  by_cases h1 : ib.1 ∈ seenOf st f
  · rw [if_pos h1]
  · rw [if_neg h1]
    by_cases h2 : selects line ib.2 = true
    · rw [if_pos h2]
      simp only [seenOf, mapGet_mapSet_other _ _ _ _ hg]
    · rw [if_neg h2]

/-- The pass over one entry of the map leaves the sets of the other files as they
are. -/
theorem diffStep_frame (profiles : List Profile) (entry : GoString × List lineInfo)
    (g : GoString) (hg : g ≠ entry.1) (st : MatchState) :
    seenOf (diffStep profiles st entry) g = seenOf st g := by
  refine foldl_frame (fun s => seenOf s g) (profileStep entry.1 entry.2) (fun s p => ?_)
    profiles st
  unfold profileStep
  by_cases hname : p.FileName = entry.1
  · rw [if_neg (not_not.2 hname)]
    have hg' : g ≠ p.FileName := by rw [hname]; exact hg
    have hloop : ∀ s1 : MatchState,
        seenOf (entry.2.foldl (blocksLoop p) s1) g = seenOf s1 g :=
      fun s1 => foldl_frame (fun s => seenOf s g) (blocksLoop p)
        (fun a line => foldl_frame (fun s => seenOf s g) (blockStep p.FileName line)
          (fun b ib => blockStep_frame p.FileName g hg' line b ib) _ a) entry.2 s1
    simp only
    rw [hloop]
    cases h1 : mapGet s.fname2index p.FileName with
    | some v => rfl
    | none => exact seenOf_ensure s _ g h1
  · rw [if_pos hname]

/-- With pairwise distinct keys, the writes of the matcher are the writes of the
entries of the map, one entry after the other in the order of the visit. -/
theorem matcher_fold_flat (profiles : List Profile) (diffs : Diff) (st : MatchState)
    (hkeys : (mapKeys diffs).Nodup) (hfresh : ∀ entry ∈ diffs, seenOf st entry.1 = []) :
    (diffs.foldl (diffStep profiles) st).emitted
      = st.emitted ++ diffs.flatMap (entryWrites profiles) := by
  induction diffs generalizing st with
  | nil => simp
  | cons entry rest ih =>
    simp only [mapKeys, List.map_cons, List.nodup_cons] at hkeys
    have hsim := diffStep_sim profiles entry st.emitted st matchInit
      ⟨by simp [matchInit], by rw [hfresh entry (by simp)]; rfl⟩
    rw [List.foldl_cons, ih (diffStep profiles st entry) hkeys.2 ?_, hsim.1,
      List.flatMap_cons, entryWrites, List.append_assoc]
    intro e he
    have hne : e.1 ≠ entry.1 := by
      intro heq
      exact hkeys.1 (by rw [← heq]; exact List.mem_map_of_mem Prod.fst he)
    rw [diffStep_frame profiles entry e.1 hne st]
    exact hfresh e (by simp [he])

theorem matcher_flat (profiles : List Profile) (diffs : Diff)
    (hkeys : (mapKeys diffs).Nodup) :
    (matcher diffs profiles).emitted = diffs.flatMap (entryWrites profiles) := by
  have := matcher_fold_flat profiles diffs matchInit hkeys (fun _ _ => rfl)
  simpa [matcher, matchInit] using this

theorem flatMap_single {α β : Type} [DecidableEq α] (g : α → List β) (a : α) (l : List α)
    (hnd : l.Nodup) (hg : ∀ x ∈ l, x ≠ a → g x = []) :
    l.flatMap g = if a ∈ l then g a else [] := by
  induction l with
  | nil => simp
  | cons x xs ih =>
    rw [List.nodup_cons] at hnd
    have ih' := ih hnd.2 (fun y hy => hg y (by simp [hy]))
    rw [List.flatMap_cons, ih']
    by_cases hx : x = a
    · subst hx
      simp [hnd.1]
    · have hxa : a ≠ x := fun h => hx h.symm
      simp only [List.mem_cons, hxa, false_or, hg x (by simp) hx, List.nil_append]

/-- C11 (amended): for a map with pairwise distinct keys, the lines written are the
lines of the entries of the map, one entry after the other in the order in which the
keys are visited, and the lines of one entry do not depend on the other entries.  So the
output is determined by the map, the profiles and the order of the visit; two orders of
visit give the same lines up to the order of the groups of the files (the writes of one
run are a permutation of the writes of the other), and the same text when at most one
entry of the map has lines. -/
theorem C11_output_follows_order_of_visit (diffs diffs' : Diff) (profiles : List Profile)
    (hkeys : (mapKeys diffs).Nodup) (hperm : diffs'.Perm diffs) :
    (matcher diffs profiles).emitted = diffs.flatMap (entryWrites profiles) ∧
    (matcher diffs' profiles).emitted = diffs'.flatMap (entryWrites profiles) ∧
    parseText diffs profiles
      = utf8 "mode: count\n" ++ render (diffs.flatMap (entryWrites profiles)) ∧
    (matcher diffs' profiles).emitted.Perm (matcher diffs profiles).emitted ∧
    (∀ entry, (∀ e ∈ diffs, e ≠ entry → entryWrites profiles e = []) →
      parseText diffs' profiles = parseText diffs profiles) := by
  have hkeys' : (mapKeys diffs').Nodup := (hperm.map Prod.fst).nodup_iff.2 hkeys
  have h1 := matcher_flat profiles diffs hkeys
  have h2 := matcher_flat profiles diffs' hkeys'
  have t1 := (matcher_spec diffs profiles).1.text
  have t2 := (matcher_spec diffs' profiles).1.text
  refine ⟨h1, h2, by rw [parseText, t1, h1], ?_, fun entry hentry => ?_⟩
  · rw [h1, h2]
    exact List.Perm.flatMap_right _ hperm
  · have hnd : diffs.Nodup := List.Nodup.of_map _ hkeys
    have hnd' : diffs'.Nodup := List.Nodup.of_map _ hkeys'
    have e1 := flatMap_single (entryWrites profiles) entry diffs hnd hentry
    have e2 := flatMap_single (entryWrites profiles) entry diffs' hnd'
      (fun x hx hne => hentry x (hperm.mem_iff.1 hx) hne)
    have hmem : entry ∈ diffs' ↔ entry ∈ diffs := hperm.mem_iff
    rw [parseText, parseText, t1, t2, h1, h2, e1, e2]
    by_cases hm : entry ∈ diffs
    · rw [if_pos hm, if_pos (hmem.2 hm)]
    · rw [if_neg hm, if_neg (mt hmem.1 hm)]

set_option maxRecDepth 8000 in
/-- Witness of C11: a map with the keys of two files, only one of which has a profile;
both orders of visit give the same text. -/
theorem C11_output_follows_order_of_visit_witness :
    (mapKeys [(xgo, [range12]), (ygo, [range12])]).Nodup ∧
      [(ygo, [range12]), (xgo, [range12])].Perm [(xgo, [range12]), (ygo, [range12])] ∧
      parseText [(ygo, [range12]), (xgo, [range12])] [⟨xgo, utf8 "set", [block14]⟩]
        = parseText [(xgo, [range12]), (ygo, [range12])] [⟨xgo, utf8 "set", [block14]⟩] ∧
      parseText [(xgo, [range12]), (ygo, [range12])] [⟨xgo, utf8 "set", [block14]⟩]
        = utf8 "mode: count\nexample.com/m/pkg/x.go:12.5,14.1 2 7\n" := by
  have hk : (mapKeys [(xgo, [range12]), (ygo, [range12])]).Nodup := by decide
  have hp : [(ygo, [range12]), (xgo, [range12])].Perm [(xgo, [range12]), (ygo, [range12])] :=
    List.Perm.swap _ _ _
  have key := (C11_output_follows_order_of_visit [(xgo, [range12]), (ygo, [range12])]
    [(ygo, [range12]), (xgo, [range12])] [⟨xgo, utf8 "set", [block14]⟩] hk hp).2.2.2.2
    (xgo, [range12])
  refine ⟨hk, hp, key ?_, by decide⟩
  intro e he hne
  simp only [List.mem_cons, List.mem_singleton, List.not_mem_nil, or_false] at he
  rcases he with he | he
  · exact absurd he hne
  · subst he; decide

set_option maxRecDepth 8000 in
/-- Counterexample to C11 as stated: a map with the keys of two files, each with a
selected block; when the key of `x.go` is visited first its line comes first, and when
the key of `y.go` is visited first the lines come in the other order, so the two texts
differ. -/
theorem C11_counterexample_order_of_visit_changes_text :
    (mapKeys [(xgo, [range12]), (ygo, [range12])]).Nodup ∧
      [(ygo, [range12]), (xgo, [range12])].Perm [(xgo, [range12]), (ygo, [range12])] ∧
      parseText [(xgo, [range12]), (ygo, [range12])]
          [⟨xgo, utf8 "set", [block14]⟩, ⟨ygo, utf8 "set", [block14]⟩]
        = utf8 ("mode: count\nexample.com/m/pkg/x.go:12.5,14.1 2 7\n" ++
            "example.com/m/pkg/y.go:12.5,14.1 2 7\n") ∧
      parseText [(ygo, [range12]), (xgo, [range12])]
          [⟨xgo, utf8 "set", [block14]⟩, ⟨ygo, utf8 "set", [block14]⟩]
        = utf8 ("mode: count\nexample.com/m/pkg/y.go:12.5,14.1 2 7\n" ++
            "example.com/m/pkg/x.go:12.5,14.1 2 7\n") ∧
      parseText [(ygo, [range12]), (xgo, [range12])]
          [⟨xgo, utf8 "set", [block14]⟩, ⟨ygo, utf8 "set", [block14]⟩]
        ≠ parseText [(xgo, [range12]), (ygo, [range12])]
          [⟨xgo, utf8 "set", [block14]⟩, ⟨ygo, utf8 "set", [block14]⟩] :=
  ⟨by decide, List.Perm.swap _ _ _, by decide, by decide, by decide⟩

/-! ## The bound of the scanner -/

/-- A line below the bound is delivered, and the scan goes on after its newline. -/
theorem ScanLines_line (a rest : GoString) (ha : (10 : UInt8) ∉ a)
    (hlen : a.length < MaxScanTokenSize) :
    ScanLines (a ++ 10 :: rest) = dropCR a :: ScanLines rest := by
  unfold ScanLines
  rw [Split_append_sep, Split_no_sep a 10 ha]
  cases hs : Split rest 10 with
  | nil => exact absurd hs (Split_ne_nil rest 10)
  | cons x xs => simp [scanTokens, hlen]

/-- A line of 64 KiB or more ends the scan: neither that line nor a line after it is
delivered. -/
theorem ScanLines_long_line (l rest : GoString) (hl : (10 : UInt8) ∉ l)
    (hlen : MaxScanTokenSize ≤ l.length) : ScanLines (l ++ 10 :: rest) = [] := by
  unfold ScanLines
  rw [Split_append_sep, Split_no_sep l 10 hl]
  cases hs : Split rest 10 with
  | nil => exact absurd hs (Split_ne_nil rest 10)
  | cons x xs => simp [scanTokens, Nat.not_lt.2 hlen]

/-- After a first line of 64 KiB or more `parseDiff` returns the empty map, whatever
sections follow. -/
theorem parseDiff_long_line (mod l rest : GoString) (hl : (10 : UInt8) ∉ l)
    (hlen : MaxScanTokenSize ≤ l.length) : parseDiff mod (l ++ 10 :: rest) = some [] := by
  unfold parseDiff
  rw [ScanLines_long_line l rest hl hlen]
  rfl

/-- An instance of `parseDiff_long_line`: a first line of 65536 bytes `a`, then the
section of `pkg/x.go` with the hunk header `@@ -10,2 +12,3 @@`; the scanner delivers no
line and the map returned is empty. -/
theorem parseDiff_long_line_example (mod : GoString) :
    parseDiff mod (List.replicate MaxScanTokenSize 97 ++
      10 :: utf8 "diff --git a/pkg/x.go b/pkg/x.go\n@@ -10,2 +12,3 @@\n") = some [] :=
  parseDiff_long_line mod _ _
    (fun h => absurd (List.eq_of_mem_replicate h) (by decide))
    (by rw [List.length_replicate])

/-! ## The bytes removed from the token -/

/-- On a token that starts with `b/` the slice `_path[2:]` is the token minus its
leading `b/`. -/
theorem drop_two_eq_trimPrefix (rest : GoString) :
    (utf8 "b/" ++ rest).drop 2 = TrimPrefix (utf8 "b/" ++ rest) (utf8 "b/") := by
  unfold TrimPrefix HasPrefix
  rw [if_pos (List.isPrefixOf_iff_prefix.2 (List.prefix_append _ _))]
  rfl

/-- C5 (the code does not do this): the line `diff --git a/my file.go b/my file.go` is a
`diff --git` line with the eligible last token `file.go`, which has no leading `b/`.
Trimming the prefix `b/`, which the comment of line 67 announces, leaves the token as it
is and gives the key `example.com/m/file.go`; the slice `_path[2:]` of line 69 removes
the bytes `fi`, and the key made is `example.com/m/le.go`. -/
theorem C5_two_bytes_are_removed_from_token_without_b :
    isHeader (utf8 "diff --git a/my file.go b/my file.go") = true ∧
      lastToken (utf8 "diff --git a/my file.go b/my file.go") = some (utf8 "file.go") ∧
      eligible (utf8 "file.go") = true ∧
      HasPrefix (utf8 "file.go") (utf8 "b/") = false ∧
      ReplaceAll (Join (utf8 "example.com/m") (TrimPrefix (utf8 "file.go") (utf8 "b/"))) 92 47
        = utf8 "example.com/m/file.go" ∧
      parseStep (utf8 "example.com/m") parseInit (utf8 "diff --git a/my file.go b/my file.go")
        = some ⟨[(utf8 "example.com/m/le.go", [])], utf8 "example.com/m/le.go", true⟩ ∧
      parseDiff (utf8 "example.com/m")
          (utf8 "diff --git a/my file.go b/my file.go\n@@ -10,2 +12,3 @@\n")
        = some [(utf8 "example.com/m/le.go", [⟨12, 3⟩])] := by
  decide

end GoDiff
